import Mathlib

/-!
Shallow embedding of the frequency-tree compressor
(src/src/lib.rs and the bit-buffer it uses) together with proofs about it.

Bytes are modelled as natural numbers (a well-formed byte is below 256);
machine arithmetic that can overflow is made explicit where it matters.
The generic symbol type U of the Rust code is modelled by a SymbolCodec:
the unsafe fixed-size byte transmutation becomes an explicit pair of
functions toBytes and ofBytes, with the laws the code relies on stated as
hypotheses of the theorems that need them.
-/

namespace FreqTree

/-- Fixed-size byte representation of the symbol type U.  The field size
models sizeof U; toBytes models reading the value as raw bytes and
ofBytes models transmuting raw bytes back into a value. -/
structure SymbolCodec (U : Type) where
  size : Nat
  toBytes : U → List Nat
  ofBytes : List Nat → U

/-- Lawfulness of a symbol codec: toBytes always yields exactly size
bytes, and reading the written bytes back reconstructs an equal value
(the spec phrase: the byte representation alone must fully reconstruct
an equal value). -/
def SymbolCodec.Lawful {U : Type} (c : SymbolCodec U) : Prop :=
  (∀ v, (c.toBytes v).length = c.size) ∧ (∀ v, c.ofBytes (c.toBytes v) = v)

/-- Concrete lawful symbol codec for single-byte symbols (U = u8),
used to instantiate theorems at concrete inputs. -/
def byteCodec : SymbolCodec (Fin 256) where
  size := 1
  toBytes := fun v => [v.val]
  ofBytes := fun l => ⟨l.headD 0 % 256, Nat.mod_lt _ (by omega)⟩

/-! ## Bit buffer (bitvec.rs) -/

/-- MSB-first list of the first n bit positions of a byte. -/
def byteBits (b : Nat) (n : Nat) : List Bool :=
  (List.range n).map (fun k => b.testBit (7 - k))

/-- Logical bit content of a padded byte sequence: every byte contributes
its 8 bits MSB-first, except the last byte whose low padding bits are
dropped.  This is the semantics of BitIterator in bitvec.rs. -/
def bitsOfBytes : List Nat → Nat → List Bool
  | [], _ => []
  | [b], pad => byteBits b (8 - pad)
  | b :: b2 :: rest, pad => byteBits b 8 ++ bitsOfBytes (b2 :: rest) pad

/-- Borrowed view over padded bytes (BitView in bitvec.rs). -/
structure BitView where
  raw_data : List Nat
  last_byte_padding : Nat
deriving DecidableEq

def BitView.iter_bits (v : BitView) : List Bool :=
  bitsOfBytes v.raw_data v.last_byte_padding

/-- Append-only bit buffer (BitVec in bitvec.rs): raw bytes plus the
number of meaningless low-order padding bits in the final byte. -/
structure BitVec where
  raw_data : List Nat
  last_byte_padding : Nat
deriving DecidableEq

def BitVec.new : BitVec := ⟨[], 0⟩

/-- BitVec append_bit: if the last byte is full, push a fresh byte seeded
with the bit in its most significant position; otherwise set the next
free MSB-first slot of the last byte. -/
def BitVec.append_bit (v : BitVec) (bit : Bool) : BitVec :=
  if v.last_byte_padding = 0 then
    ⟨v.raw_data ++ [(cond bit 1 0) <<< 7], 7⟩
  else
    ⟨v.raw_data.dropLast ++
      [v.raw_data.getLastD 0 ||| ((cond bit 1 0) <<< (v.last_byte_padding - 1))],
     v.last_byte_padding - 1⟩

def BitVec.as_bit_view (v : BitVec) : BitView :=
  ⟨v.raw_data, v.last_byte_padding⟩

def BitVec.iter_bits (v : BitVec) : List Bool :=
  v.as_bit_view.iter_bits

/-- BitVec extend_from_bits: fast raw byte copy when byte-aligned
(padding zero), otherwise the bit-by-bit slow path. -/
def BitVec.extend_from_bits (v : BitVec) (view : BitView) : BitVec :=
  if v.last_byte_padding = 0 then
    ⟨v.raw_data ++ view.raw_data, view.last_byte_padding⟩
  else
    view.iter_bits.foldl BitVec.append_bit v

/-- BitVec serialization: one leading padding byte followed by the data
bytes verbatim (content appended to the output buffer by lib.rs). -/
def BitVec.serialize (v : BitVec) : List Nat :=
  v.last_byte_padding :: v.raw_data

/-- BitVec deserialization (bitvec.rs): the first byte, read by the
unchecked index input[0], is the padding, and the rest is the raw data,
with no validation.  On an empty input the index is out of bounds and
the code panics, modelled by none. -/
def BitVec.deserialize (input : List Nat) : Option BitVec :=
  match input with
  | [] => none
  | p :: rest => some ⟨rest, p⟩

def least_bytes_repr_for_bits (bit_count : Nat) : Nat :=
  bit_count / 8 + (if bit_count % 8 ≠ 0 then 1 else 0)

/-- Well-formedness of a padded byte sequence as maintained by the code:
padding below 8, an empty buffer has padding 0, and the padding bits of
the final byte are zero. -/
def paddedWF (data : List Nat) (pad : Nat) : Prop :=
  pad < 8 ∧ (data = [] → pad = 0) ∧ data.getLastD 0 % 2 ^ pad = 0

/-! ## Code path accumulator (Encoding in lib.rs) -/

/-- Byte-swap of a 64-bit value, modelling u64 to_be on a little-endian
host (the double application in step_right cancels into setting one bit
of the in-memory byte view). -/
def swap64 (x : Nat) : Nat :=
  ((x >>> 0) % 256) <<< 56 ||| ((x >>> 8) % 256) <<< 48 |||
  ((x >>> 16) % 256) <<< 40 ||| ((x >>> 24) % 256) <<< 32 |||
  ((x >>> 32) % 256) <<< 24 ||| ((x >>> 40) % 256) <<< 16 |||
  ((x >>> 48) % 256) <<< 8 ||| ((x >>> 56) % 256)

/-- Code path accumulator: a 64-bit integer (modelled as a natural kept
below 2 to the 64) plus the count of meaningful bits. -/
structure Encoding where
  bits : Nat
  meaningful : Nat
deriving DecidableEq

def Encoding.new_zeroed : Encoding := ⟨0, 0⟩

def Encoding.step_left (e : Encoding) : Encoding :=
  ⟨e.bits, e.meaningful + 1⟩

/-- Encoding step_right, translated from
(bits.to_be() | (1 << 63 - meaningful)).to_be() on a little-endian host.
Faithful for meaningful at most 63 (beyond that the Rust code panics in
debug builds; all theorems about it carry that bound). -/
def Encoding.step_right (e : Encoding) : Encoding :=
  ⟨swap64 (swap64 e.bits ||| (1 <<< (63 - e.meaningful))), e.meaningful + 1⟩

/-- Encoding as_bits: view over the first least_bytes_repr_for_bits
bytes of the little-endian in-memory representation, with the unused
high positions of the final byte recorded as padding. -/
def Encoding.as_bits (e : Encoding) : BitView :=
  ⟨(List.range (least_bytes_repr_for_bits e.meaningful)).map
      (fun j => (e.bits >>> (8 * j)) % 256),
   (8 - e.meaningful % 8) * (if e.meaningful % 8 ≠ 0 then 1 else 0)⟩

/-- Numeric bit position (little-endian u64 value) of the i-th MSB-first
path bit as laid out by step_right. -/
def bitposN (i : Nat) : Nat := 8 * (i / 8) + (7 - i % 8)

/-- Numeric value whose in-memory byte view holds the given path bits
starting at position i: the reference semantics of the accumulator. -/
def pathVal : List Bool → Nat → Nat
  | [], _ => 0
  | b :: rest, i => (cond b (1 <<< bitposN i) 0) ||| pathVal rest (i + 1)

/-- Apply a sequence of left/right steps starting from the zero path. -/
def applySteps (steps : List Bool) : Encoding :=
  steps.foldl (fun e b => if b then e.step_right else e.step_left) Encoding.new_zeroed

/-- Sequence of steps applied from an arbitrary starting encoding. -/
def stepsFrom (e : Encoding) (p : List Bool) : Encoding :=
  p.foldl (fun e b => if b then e.step_right else e.step_left) e

/-! ## Tree nodes (Node in lib.rs) -/

inductive Node (U : Type) where
  | parent (count : Nat) (left : Node U) (right : Node U)
  | leaf (count : Nat) (value : U)
deriving DecidableEq

namespace Node

def count : Node U → Nat
  | parent c _ _ => c
  | leaf c _ => c

/-- Node insert: a leaf splits into a parent keeping the old leaf on the
left and the new one on the right; a parent descends into the left child
exactly when the right child is strictly heavier, and adds the inserted
frequency to its own count. -/
def insert [DecidableEq U] : Node U → Nat → U → Node U
  | parent c left right, freq, insert_value =>
    if right.count > left.count then
      parent (c + freq) (left.insert freq insert_value) right
    else
      parent (c + freq) left (right.insert freq insert_value)
  | leaf c value, freq, insert_value =>
    parent (c + freq) (leaf c value) (leaf freq insert_value)

/-- Node encode: depth-first left-preferring search for the target value,
extending the accumulated code path on the way down. -/
def encode [DecidableEq U] : Node U → Encoding → U → Option Encoding
  | parent _ left right, encoding, target =>
    match left.encode encoding.step_left target with
    | some ret => some ret
    | none => right.encode encoding.step_right target
  | leaf _ value, encoding, target =>
    if value = target then some encoding else none

/-- Left-preferring root-to-leaf path to the target value as a plain bit
list (false = left, true = right); specification-level companion of
encode used to relate the accumulator to tree walks. -/
def pathTo [DecidableEq U] : Node U → U → Option (List Bool)
  | parent _ left right, target =>
    match left.pathTo target with
    | some p => some (false :: p)
    | none => (right.pathTo target).map (fun p => true :: p)
  | leaf _ value, target => if value = target then some [] else none

def height : Node U → Nat
  | parent _ left right => 1 + max left.height right.height
  | leaf _ _ => 0

/-- The PartialEq implementation for Node: compares structure and leaf
values only, ignoring counts. -/
def nodeEq [DecidableEq U] : Node U → Node U → Bool
  | parent _ ll lr, parent _ rl rr => ll.nodeEq rl && lr.nodeEq rr
  | leaf _ lv, leaf _ rv => decide (lv = rv)
  | _, _ => false

def countsZero : Node U → Bool
  | parent c left right => (c == 0) && left.countsZero && right.countsZero
  | leaf c _ => c == 0

/-- The in-order list of leaf values of a tree. -/
def leavesVals : Node U → List U
  | parent _ left right => left.leavesVals ++ right.leavesVals
  | leaf _ value => [value]

/-- Node serialize: preorder, tag byte 1 for a parent followed by both
subtrees, tag byte 0 for a leaf followed by the raw value bytes
(SerialSpecifier: Leaf = 0, Parent = 1). -/
def serialize (c : SymbolCodec U) : Node U → List Nat
  | parent _ left right => 1 :: (left.serialize c ++ right.serialize c)
  | leaf _ value => 0 :: c.toBytes value

end Node

inductive NodeDeserializationError where
  | missingNodeTypeSpecifier
  | invalidNodeTypeSpecifier (value : Nat)
  | missingNodeUnitData
deriving DecidableEq

/-- Node deserialize: reads the tag byte (absent tag or a tag above 1 is
an error), then for a leaf checks that sizeof U bytes remain and
reinterprets them, and for a parent parses the left subtree followed by
the right subtree, reporting total consumed bytes. -/
def Node.deserialize (c : SymbolCodec U) (buf : List Nat) :
    Except NodeDeserializationError (Node U × Nat) :=
  match buf with
  | [] => Except.error NodeDeserializationError.missingNodeTypeSpecifier
  | tag :: rest =>
    if 1 < tag then
      Except.error (NodeDeserializationError.invalidNodeTypeSpecifier tag)
    else if tag = 0 then
      if rest.length + 1 < 1 + c.size then
        Except.error NodeDeserializationError.missingNodeUnitData
      else
        Except.ok (Node.leaf 0 (c.ofBytes (rest.take c.size)), 1 + c.size)
    else
      match Node.deserialize c rest with
      | Except.error e => Except.error e
      | Except.ok (left, read1) =>
        match Node.deserialize c (rest.drop read1) with
        | Except.error e => Except.error e
        | Except.ok (right, read2) =>
          Except.ok (Node.parent 0 left right, 1 + read1 + read2)
termination_by buf.length
decreasing_by
  · simp only [List.length_cons]; omega
  · simp only [List.length_cons, List.length_drop]; omega

/-- Recursive characterisation of the inputs on which tree
deserialization fails: tag byte absent, tag byte neither 0 nor 1, a leaf
tag followed by fewer than sizeof U bytes, or the same condition arising
while parsing either subtree of a parent tag. -/
def malformedTreeBytes (c : SymbolCodec U) (buf : List Nat) : Bool :=
  match buf with
  | [] => true
  | tag :: rest =>
    if 1 < tag then true
    else if tag = 0 then decide (rest.length + 1 < 1 + c.size)
    else
      malformedTreeBytes c rest ||
      (match Node.deserialize c rest with
       | Except.ok (_, read1) => malformedTreeBytes c (rest.drop read1)
       | Except.error _ => false)
termination_by buf.length
decreasing_by
  · simp only [List.length_cons]; omega
  · simp only [List.length_cons, List.length_drop]; omega

/-- The tree that deserialization reconstructs from a serialized tree:
the same shape with every count reset to zero and every leaf value sent
through the byte codec. -/
def stripNode (c : SymbolCodec U) : Node U → Node U
  | Node.parent _ left right => Node.parent 0 (stripNode c left) (stripNode c right)
  | Node.leaf _ value => Node.leaf 0 (c.ofBytes (c.toBytes value))

/-! ## Decoding tree -/

inductive DecodingError where
  | invalidEncoding
deriving DecidableEq

/-- Result of the decode state machine; the panicked outcome models the
unreachable branch in DecodingTree decode being reached. -/
inductive DecodeOutcome (U : Type) where
  | ok (decoded : List U)
  | err (e : DecodingError)
  | panicked
deriving DecidableEq

structure DecodingTree (U : Type) where
  root : Node U
deriving DecidableEq

/-- Loop body of DecodingTree decode: walk bits from the current node,
descending left on 0 and right on 1; on reaching a leaf emit its value
and reset to the root.  The boolean records whether the current node
pointer equals the root pointer.  A remaining bit while the current node
is a leaf drives the Rust code into its unreachable branch. -/
def decodeLoop [DecidableEq U] (root : Node U) :
    List Bool → Node U → Bool → List U → DecodeOutcome U
  | [], node, atRoot, decoded =>
    match node with
    | Node.leaf _ value => DecodeOutcome.ok (decoded ++ [value])
    | Node.parent _ _ _ =>
      if atRoot then DecodeOutcome.ok decoded
      else DecodeOutcome.err DecodingError.invalidEncoding
  | bit :: restBits, node, _, decoded =>
    match node with
    | Node.parent _ left right =>
      match if bit then right else left with
      | Node.parent _ _ _ => decodeLoop root restBits (if bit then right else left) false decoded
      | Node.leaf _ value => decodeLoop root restBits root true (decoded ++ [value])
    | Node.leaf _ _ => DecodeOutcome.panicked

def DecodingTree.decode [DecidableEq U] (t : DecodingTree U) (bitcode : BitView) :
    DecodeOutcome U :=
  decodeLoop t.root bitcode.iter_bits t.root true []

def DecodingTree.serialize (c : SymbolCodec U) (t : DecodingTree U) : List Nat :=
  t.root.serialize c

def DecodingTree.deserialize (c : SymbolCodec U) (input : List Nat) :
    Except NodeDeserializationError (DecodingTree U × Nat) :=
  match Node.deserialize c input with
  | Except.error e => Except.error e
  | Except.ok (root, read) => Except.ok (⟨root⟩, read)

/-! ## Encoding tree and entry points -/

structure EncodingTree (U : Type) where
  root : Option (Node U)
  leaf_count : Nat
deriving DecidableEq

def EncodingTree.new : EncodingTree U := ⟨none, 0⟩

def EncodingTree.add_value [DecidableEq U] (t : EncodingTree U) (freq : Nat) (value : U) :
    EncodingTree U :=
  match t.root with
  | some root => ⟨some (root.insert freq value), t.leaf_count + 1⟩
  | none => ⟨some (Node.leaf freq value), t.leaf_count + 1⟩

/-- Canonical model of value_frequencies: occurrence counts of the
distinct values in first-occurrence order.  The Rust code drains a
HashMap whose iteration order is unspecified and varies per call, so
every theorem that depends on this order quantifies over an arbitrary
valid frequency listing via validFreqs instead. -/
def value_frequencies [DecidableEq U] (data : List U) : List (U × Nat) :=
  data.dedup.map (fun v => (v, data.count v))

/-- A possible drain order of the frequency map of data: each distinct
value of data paired with its occurrence count, each exactly once, in
any order. -/
def validFreqs [DecidableEq U] (data : List U) (freqs : List (U × Nat)) : Prop :=
  (freqs.map Prod.fst).Nodup ∧
  (∀ p ∈ freqs, p.1 ∈ data ∧ p.2 = data.count p.1) ∧
  (∀ v ∈ data, v ∈ freqs.map Prod.fst)

/-- The stable sort by ascending count (sort_by_key in lib.rs; any stable
sort computes the same list, so insertion sort is used here). -/
def sort_frequencies (freqs : List (U × Nat)) : List (U × Nat) :=
  List.insertionSort (fun a b => a.2 ≤ b.2) freqs

instance sortByCountTotal {U : Type} :
    IsTotal (U × Nat) (fun a b => a.2 ≤ b.2) :=
  ⟨fun a b => Nat.le_total a.2 b.2⟩

instance sortByCountTrans {U : Type} :
    IsTrans (U × Nat) (fun a b => a.2 ≤ b.2) :=
  ⟨fun _ _ _ => Nat.le_trans⟩

/-- Build the encoding tree by inserting the sorted frequency pairs in
order (the loop over frequencies in EncodingTree encode). -/
def buildTree [DecidableEq U] (freqs : List (U × Nat)) : EncodingTree U :=
  freqs.foldl (fun t p => t.add_value p.2 p.1) EncodingTree.new

/-- The per-symbol encoding loop of EncodingTree encode: encode each
input symbol from the root and append its code bits to the output
buffer.  A value missing from the tree or an uninitialized tree would
panic in Rust (unwrap), modelled by none. -/
def encodeBits [DecidableEq U] (root : Node U) (data : List U) : Option BitVec :=
  data.foldlM
    (fun encoded ch =>
      (root.encode Encoding.new_zeroed ch).map
        (fun e => encoded.extend_from_bits e.as_bits))
    BitVec.new

/-- The compress entry point, parametrised by the frequency-map drain
order.  Returns none where the Rust code panics: the unwrap of
into_decoder on an empty tree (empty input). -/
def compressWith [DecidableEq U] (c : SymbolCodec U) (freqs : List (U × Nat))
    (data : List U) : Option (List Nat) :=
  let sorted := sort_frequencies freqs
  let encoder := buildTree sorted
  match encoder.root with
  | none => none
  | some root =>
    (encodeBits root data).map (fun bitcode => root.serialize c ++ bitcode.serialize)

/-- The compress entry point at the canonical drain order. -/
def compress [DecidableEq U] (c : SymbolCodec U) (data : List U) : Option (List Nat) :=
  compressWith c (value_frequencies data) data

/-- Concatenation of the code paths of the symbols of data in the tree,
in input order: the logical bit stream the encoder must produce. -/
def pathBitsOf [DecidableEq U] (t : Node U) (data : List U) : List Bool :=
  data.flatMap (fun v => (t.pathTo v).getD [])

/-- Whether the tree built from the given (already sorted) frequency
pairs fits the 64-bit code-path accumulator: its height is at most 64.
An absent root fits trivially. -/
def rootHeightLe64 [DecidableEq U] (freqs : List (U × Nat)) : Bool :=
  match (buildTree freqs).root with
  | none => true
  | some t => decide (t.height ≤ 64)

inductive DecompressionError where
  | invalidBitCode
  | invalidDecodingTree (e : NodeDeserializationError)
  | bitCodeDecodingError (e : DecodingError)
deriving DecidableEq

/-- Result of decompress; the panicked outcome surfaces the reachable
unreachable branch of the decode loop. -/
inductive DecompressOutcome (U : Type) where
  | ok (decoded : List U)
  | err (e : DecompressionError)
  | panicked
deriving DecidableEq

/-- The decompress entry point: parse the tree prefix, read the rest as
a bit buffer, then run the decode walk, wrapping the tree and decode
stage errors.  The bit-buffer stage has no error to wrap into
invalidBitCode: BitVec.deserialize in bitvec.rs returns the value
directly and its only failure mode is the input[0] index panic on an
empty remainder, which propagates as a panic of decompress. -/
def decompress [DecidableEq U] (c : SymbolCodec U) (input : List Nat) :
    DecompressOutcome U :=
  match DecodingTree.deserialize c input with
  | Except.error e => DecompressOutcome.err (DecompressionError.invalidDecodingTree e)
  | Except.ok (decoder, read) =>
    match BitVec.deserialize (input.drop read) with
    | none => DecompressOutcome.panicked
    | some bitcode =>
      match decoder.decode bitcode.as_bit_view with
      | DecodeOutcome.ok decoded => DecompressOutcome.ok decoded
      | DecodeOutcome.err e =>
        DecompressOutcome.err (DecompressionError.bitCodeDecodingError e)
      | DecodeOutcome.panicked => DecompressOutcome.panicked

/-! ## Helper lemmas: bytes and bit lists -/

theorem low_bits_zero_iff (x k : Nat) :
    x % 2 ^ k = 0 ↔ ∀ i < k, x.testBit i = false := by
  constructor
  · intro h i hi
    have := Nat.testBit_mod_two_pow x k i
    rw [h] at this
    simp [Nat.zero_testBit, hi] at this
    exact this
  · intro h
    apply Nat.eq_of_testBit_eq
    intro i
    rw [Nat.testBit_mod_two_pow, Nat.zero_testBit]
    by_cases hik : i < k
    · simp [hik, h i hik]
    · simp [hik]

theorem byteBits_length (b n : Nat) : (byteBits b n).length = n := by
  simp [byteBits]

theorem byteBits_succ (b n : Nat) :
    byteBits b (n + 1) = byteBits b n ++ [b.testBit (7 - n)] := by
  simp [byteBits, List.range_succ]

theorem bitsOfBytes_nil (pad : Nat) : bitsOfBytes [] pad = [] := rfl

theorem bitsOfBytes_append (d1 d2 : List Nat) (pad : Nat) (h : d2 ≠ []) :
    bitsOfBytes (d1 ++ d2) pad = bitsOfBytes d1 0 ++ bitsOfBytes d2 pad := by
  induction d1 with
  | nil => simp [bitsOfBytes]
  | cons a d1 ih =>
    cases d1 with
    | nil =>
      cases d2 with
      | nil => exact absurd rfl h
      | cons b2 rest => simp [bitsOfBytes]
    | cons a2 rest =>
      rw [show bitsOfBytes ((a :: a2 :: rest) ++ d2) pad
            = byteBits a 8 ++ bitsOfBytes ((a2 :: rest) ++ d2) pad from rfl]
      rw [ih]
      rw [show bitsOfBytes (a :: a2 :: rest) 0
            = byteBits a 8 ++ bitsOfBytes (a2 :: rest) 0 from rfl]
      simp [List.append_assoc]

theorem bitsOfBytes_append_last (data : List Nat) (b pad : Nat) :
    bitsOfBytes (data ++ [b]) pad = bitsOfBytes data 0 ++ byteBits b (8 - pad) := by
  rw [bitsOfBytes_append data [b] pad (by simp)]
  rfl

theorem bitsOfBytes_length (data : List Nat) (pad : Nat) (h : data ≠ []) :
    (bitsOfBytes data pad).length = 8 * (data.length - 1) + (8 - pad) := by
  induction data with
  | nil => exact absurd rfl h
  | cons a data ih =>
    cases data with
    | nil => simp [bitsOfBytes, byteBits_length]
    | cons a2 rest =>
      simp only [bitsOfBytes, List.length_append, byteBits_length, List.length_cons]
      rw [ih (by simp)]
      simp
      omega

theorem byteBits_getElem? (b n i : Nat) (h : i < n) :
    (byteBits b n)[i]? = some (b.testBit (7 - i)) := by
  simp [byteBits, List.getElem?_map, List.getElem?_range h]

theorem bitsOfBytes_getElem? (data : List Nat) (pad i : Nat)
    (hi : i < (bitsOfBytes data pad).length)
    (hib : i / 8 < data.length) :
    (bitsOfBytes data pad)[i]? = some ((data.getD (i / 8) 0).testBit (7 - i % 8)) := by
  induction data generalizing i with
  | nil => simp at hib
  | cons a data ih =>
    cases data with
    | nil =>
      have hlen : (bitsOfBytes [a] pad).length = 8 - pad := by
        simp [bitsOfBytes, byteBits_length]
      rw [hlen] at hi
      have hi8 : i < 8 := by omega
      rw [show i / 8 = 0 from Nat.div_eq_of_lt hi8, show i % 8 = i from Nat.mod_eq_of_lt hi8]
      show (byteBits a (8 - pad))[i]? = _
      rw [byteBits_getElem? a (8 - pad) i (by omega)]
      simp
    | cons a2 rest =>
      show (byteBits a 8 ++ bitsOfBytes (a2 :: rest) pad)[i]? = _
      by_cases h8 : i < 8
      · rw [List.getElem?_append_left (by simpa [byteBits_length] using h8)]
        rw [byteBits_getElem? a 8 i h8]
        rw [show i / 8 = 0 from Nat.div_eq_of_lt h8, show i % 8 = i from Nat.mod_eq_of_lt h8]
        simp
      · have h8le : 8 ≤ i := by omega
        rw [List.getElem?_append_right (by simp [byteBits_length]; omega)]
        rw [show i - (byteBits a 8).length = i - 8 by simp [byteBits_length]]
        have hi2 : i - 8 < (bitsOfBytes (a2 :: rest) pad).length := by
          have : (byteBits a 8 ++ bitsOfBytes (a2 :: rest) pad).length
              = 8 + (bitsOfBytes (a2 :: rest) pad).length := by
            simp [byteBits_length]
          rw [show bitsOfBytes (a :: a2 :: rest) pad
                = byteBits a 8 ++ bitsOfBytes (a2 :: rest) pad from rfl, this] at hi
          omega
        have hib2 : (i - 8) / 8 < (a2 :: rest).length := by
          simp at hib ⊢
          omega
        rw [ih (i - 8) hi2 hib2]
        obtain ⟨k, hk⟩ : ∃ k, i / 8 = k + 1 := ⟨i / 8 - 1, by omega⟩
        rw [show (i - 8) / 8 = k by omega, show (i - 8) % 8 = i % 8 by omega, hk]
        simp

theorem testBit_le_one (c j : Nat) (hc : c ≤ 1) (hj : 1 ≤ j) : c.testBit j = false := by
  apply Nat.testBit_lt_two_pow
  have h2 : (2 : Nat) ≤ 2 ^ j := by
    calc (2 : Nat) = 2 ^ 1 := by norm_num
    _ ≤ 2 ^ j := Nat.pow_le_pow_right (by norm_num) hj
  omega

theorem getLastD_eq_getLast (l : List Nat) (h : l ≠ []) : l.getLastD 0 = l.getLast h := by
  rw [List.getLastD_eq_getLast?, List.getLast?_eq_getLast l h]
  rfl

/-! ## Bit buffer correctness -/

/-- Appending one bit appends exactly that bit to the logical bit content
and preserves well-formedness. -/
theorem append_bit_spec (v : BitVec) (b : Bool)
    (h : paddedWF v.raw_data v.last_byte_padding) :
    (v.append_bit b).iter_bits = v.iter_bits ++ [b] ∧
    paddedWF (v.append_bit b).raw_data (v.append_bit b).last_byte_padding := by
  obtain ⟨hp8, hemp, hlast⟩ := h
  by_cases hpad : v.last_byte_padding = 0
  · have hres : v.append_bit b = ⟨v.raw_data ++ [(cond b 1 0) <<< 7], 7⟩ := by
      simp [BitVec.append_bit, hpad]
    rw [hres]
    constructor
    · show bitsOfBytes (v.raw_data ++ [cond b 1 0 <<< 7]) 7
          = bitsOfBytes v.raw_data v.last_byte_padding ++ [b]
      rw [bitsOfBytes_append_last, hpad]
      congr 1
      show byteBits (cond b 1 0 <<< 7) 1 = [b]
      cases b <;> decide
    · refine ⟨by show (7:Nat) < 8; omega, by simp, ?_⟩
      show (v.raw_data ++ [cond b 1 0 <<< 7]).getLastD 0 % 2 ^ 7 = 0
      rw [List.getLastD_eq_getLast?, List.getLast?_concat]
      cases b <;> decide
  · have hne : v.raw_data ≠ [] := fun hn => hpad (hemp hn)
    have hpad1 : 1 ≤ v.last_byte_padding := by omega
    set pad := v.last_byte_padding with hpaddef
    set last := v.raw_data.getLastD 0 with hlastdef
    set newlast := last ||| (cond b 1 0) <<< (pad - 1) with hnewdef
    have hres : v.append_bit b = ⟨v.raw_data.dropLast ++ [newlast], pad - 1⟩ := by
      simp only [BitVec.append_bit, if_neg hpad]
    rw [hres]
    have hsplit : v.raw_data = v.raw_data.dropLast ++ [last] := by
      rw [hlastdef, getLastD_eq_getLast v.raw_data hne]
      exact (List.dropLast_append_getLast hne).symm
    have hlastlow : ∀ i < pad, last.testBit i = false :=
      (low_bits_zero_iff last pad).mp hlast
    have hbits : ∀ k < 8 - pad, newlast.testBit (7 - k) = last.testBit (7 - k) := by
      intro k hk
      rw [hnewdef, Nat.testBit_or]
      have : ((cond b 1 0) <<< (pad - 1)).testBit (7 - k) = false := by
        rw [Nat.testBit_shiftLeft]
        have hgt : 7 - k - (pad - 1) ≥ 1 := by omega
        rw [testBit_le_one (cond b 1 0) (7 - k - (pad - 1)) (by cases b <;> simp) hgt]
        simp
      rw [this]
      simp
    have hnewbit : newlast.testBit (pad - 1) = b := by
      rw [hnewdef, Nat.testBit_or, hlastlow (pad - 1) (by omega), Nat.testBit_shiftLeft]
      simp
      cases b <;> simp
    constructor
    · show bitsOfBytes (v.raw_data.dropLast ++ [newlast]) (pad - 1)
          = bitsOfBytes v.raw_data pad ++ [b]
      rw [bitsOfBytes_append_last]
      conv_rhs => rw [hsplit, bitsOfBytes_append_last]
      rw [List.append_assoc]
      congr 1
      have h9 : 8 - (pad - 1) = (8 - pad) + 1 := by omega
      rw [h9, byteBits_succ]
      have h7 : 7 - (8 - pad) = pad - 1 := by omega
      rw [h7, hnewbit]
      congr 1
      exact List.map_congr_left (fun k hk => hbits k (List.mem_range.mp hk))
    · refine ⟨by show pad - 1 < 8; omega, by simp, ?_⟩
      show (v.raw_data.dropLast ++ [newlast]).getLastD 0 % 2 ^ (pad - 1) = 0
      rw [List.getLastD_eq_getLast?, List.getLast?_concat]
      show newlast % 2 ^ (pad - 1) = 0
      rw [low_bits_zero_iff]
      intro i hi
      rw [hnewdef, Nat.testBit_or, hlastlow i (by omega), Nat.testBit_shiftLeft]
      simp
      omega

/-- Folding append_bit over a bit list appends that list to the logical
content and preserves well-formedness. -/
theorem foldl_append_bit_spec (bits : List Bool) (v : BitVec)
    (h : paddedWF v.raw_data v.last_byte_padding) :
    (bits.foldl BitVec.append_bit v).iter_bits = v.iter_bits ++ bits ∧
    paddedWF (bits.foldl BitVec.append_bit v).raw_data
      (bits.foldl BitVec.append_bit v).last_byte_padding := by
  induction bits generalizing v with
  | nil => simpa using h
  | cons b rest ih =>
    obtain ⟨h1, h2⟩ := append_bit_spec v b h
    obtain ⟨h3, h4⟩ := ih (v.append_bit b) h2
    refine ⟨?_, h4⟩
    rw [List.foldl_cons] at *
    rw [h3, h1]
    simp

/-- BitVec extend_from_bits appends the logical bit content of the view,
through either the aligned fast path or the misaligned slow path, and
preserves well-formedness. -/
theorem extend_from_bits_spec (v : BitVec) (view : BitView)
    (hv : paddedWF v.raw_data v.last_byte_padding)
    (hw : paddedWF view.raw_data view.last_byte_padding) :
    (v.extend_from_bits view).iter_bits = v.iter_bits ++ view.iter_bits ∧
    paddedWF (v.extend_from_bits view).raw_data
      (v.extend_from_bits view).last_byte_padding := by
  by_cases hpad : v.last_byte_padding = 0
  · have hres : v.extend_from_bits view
        = ⟨v.raw_data ++ view.raw_data, view.last_byte_padding⟩ := by
      simp [BitVec.extend_from_bits, hpad]
    rw [hres]
    by_cases hemp : view.raw_data = []
    · have hp2 : view.last_byte_padding = 0 := hw.2.1 hemp
      constructor
      · show bitsOfBytes (v.raw_data ++ view.raw_data) view.last_byte_padding
            = bitsOfBytes v.raw_data v.last_byte_padding
              ++ bitsOfBytes view.raw_data view.last_byte_padding
        rw [hemp, hp2, hpad]
        simp [bitsOfBytes]
      · refine ⟨hw.1, fun _ => hp2, ?_⟩
        show (v.raw_data ++ view.raw_data).getLastD 0 % 2 ^ view.last_byte_padding = 0
        rw [hp2, hemp]
        simp
        omega
    · obtain ⟨b2, rest, hemp2⟩ := List.exists_cons_of_ne_nil hemp
      constructor
      · show bitsOfBytes (v.raw_data ++ view.raw_data) view.last_byte_padding
            = bitsOfBytes v.raw_data v.last_byte_padding
              ++ bitsOfBytes view.raw_data view.last_byte_padding
        rw [hpad, hemp2, bitsOfBytes_append _ _ _ (by simp)]
      · refine ⟨hw.1, by intro hf; rw [hemp2] at hf; simp at hf, ?_⟩
        show (v.raw_data ++ view.raw_data).getLastD 0 % 2 ^ view.last_byte_padding = 0
        have h2 := hw.2.2
        rw [hemp2] at h2 ⊢
        simpa [List.getLastD_eq_getLast?,
          List.getLast?_append_of_ne_nil _ (by simp : (b2 :: rest) ≠ [])] using h2
  · have hres : v.extend_from_bits view = view.iter_bits.foldl BitVec.append_bit v := by
      simp [BitVec.extend_from_bits, hpad]
    rw [hres]
    exact foldl_append_bit_spec view.iter_bits v hv

/-! ## Code path accumulator correctness -/

theorem swap64_lt (x : Nat) : swap64 x < 2 ^ 64 := by
  have hterm : ∀ (a s : Nat), s ≤ 56 → (a % 256) <<< s < 2 ^ 64 := by
    intro a s hs
    rw [Nat.shiftLeft_eq]
    calc a % 256 * 2 ^ s < 256 * 2 ^ s :=
          Nat.mul_lt_mul_of_lt_of_le (Nat.mod_lt a (by norm_num)) (le_refl _) (by positivity)
    _ = 2 ^ (8 + s) := by rw [pow_add]; norm_num
    _ ≤ 2 ^ 64 := Nat.pow_le_pow_right (by norm_num) (by omega)
  have hlast : (x >>> 56) % 256 < 2 ^ 64 := by
    have := Nat.mod_lt (x >>> 56) (show 0 < 256 by norm_num)
    omega
  unfold swap64
  exact Nat.or_lt_two_pow
    (Nat.or_lt_two_pow
      (Nat.or_lt_two_pow
        (Nat.or_lt_two_pow
          (Nat.or_lt_two_pow
            (Nat.or_lt_two_pow
              (Nat.or_lt_two_pow (hterm _ _ (by norm_num)) (hterm _ _ (by norm_num)))
              (hterm _ _ (by norm_num)))
            (hterm _ _ (by norm_num)))
          (hterm _ _ (by norm_num)))
        (hterm _ _ (by norm_num)))
      (hterm _ _ (by norm_num)))
    hlast

set_option maxHeartbeats 1000000 in
theorem swap64_testBit (x j : Nat) :
    (swap64 x).testBit j = (decide (j < 64) && x.testBit (8 * (7 - j / 8) + j % 8)) := by
  rcases Nat.lt_or_ge j 64 with h | h
  · unfold swap64
    interval_cases j <;>
      simp only [Nat.testBit_or, Nat.testBit_shiftLeft,
        show (256 : Nat) = 2 ^ 8 by norm_num, Nat.testBit_mod_two_pow,
        Nat.testBit_shiftRight] <;>
      simp
  · have h1 : (swap64 x).testBit j = false :=
      Nat.testBit_lt_two_pow
        (lt_of_lt_of_le (swap64_lt x) (Nat.pow_le_pow_right (by norm_num) h))
    rw [h1]
    have h2 : ¬(j < 64) := by omega
    simp [h2]

theorem bitposN_lt (i : Nat) (h : i ≤ 63) : bitposN i < 64 := by
  unfold bitposN
  omega

theorem step_right_eq (x m : Nat) (hm : m ≤ 63) (hx : x < 2 ^ 64) :
    Encoding.step_right ⟨x, m⟩ = ⟨x ||| 1 <<< bitposN m, m + 1⟩ := by
  show Encoding.mk (swap64 (swap64 x ||| (1 <<< (63 - m)))) (m + 1) = _
  congr 1
  apply Nat.eq_of_testBit_eq
  intro j
  rcases Nat.lt_or_ge j 64 with hj | hj
  · rw [swap64_testBit, Nat.one_shiftLeft, Nat.one_shiftLeft]
    have hd : decide (j < 64) = true := by simp [hj]
    rw [hd, Bool.true_and, Nat.testBit_or, swap64_testBit, Nat.testBit_two_pow,
      Nat.testBit_or, Nat.testBit_two_pow]
    have hσ : 8 * (7 - (8 * (7 - j / 8) + j % 8) / 8) + (8 * (7 - j / 8) + j % 8) % 8 = j := by
      omega
    have hσlt : decide (8 * (7 - j / 8) + j % 8 < 64) = true := by
      simp
      omega
    rw [hσ, hσlt, Bool.true_and]
    congr 1
    rw [decide_eq_decide]
    unfold bitposN
    omega
  · have h1 : (swap64 (swap64 x ||| (1 <<< (63 - m)))).testBit j = false := by
      apply Nat.testBit_lt_two_pow
      exact lt_of_lt_of_le (swap64_lt _) (Nat.pow_le_pow_right (by norm_num) hj)
    have h2 : (x ||| 1 <<< bitposN m).testBit j = false := by
      apply Nat.testBit_lt_two_pow
      apply lt_of_lt_of_le _ (Nat.pow_le_pow_right (show 1 ≤ 2 by norm_num) hj)
      apply Nat.or_lt_two_pow hx
      rw [Nat.one_shiftLeft]
      exact Nat.pow_lt_pow_right (by norm_num) (bitposN_lt m hm)
    rw [h1, h2]

theorem bitposN_inj (a b : Nat) (h : bitposN a = bitposN b) : a = b := by
  unfold bitposN at h
  omega

theorem pathVal_lt (p : List Bool) (i : Nat) (h : i + p.length ≤ 64) :
    pathVal p i < 2 ^ 64 := by
  induction p generalizing i with
  | nil => simp [pathVal]
  | cons b rest ih =>
    show (cond b (1 <<< bitposN i) 0) ||| pathVal rest (i + 1) < 2 ^ 64
    apply Nat.or_lt_two_pow
    · cases b
      · simp
      · show 1 <<< bitposN i < 2 ^ 64
        rw [Nat.one_shiftLeft]
        exact Nat.pow_lt_pow_right (by norm_num)
          (bitposN_lt i (by simp at h; omega))
    · exact ih (i + 1) (by simp at h ⊢; omega)

theorem pathVal_testBit_other (p : List Bool) (i t : Nat)
    (h : ∀ k < p.length, t ≠ bitposN (i + k)) :
    (pathVal p i).testBit t = false := by
  induction p generalizing i with
  | nil => simp [pathVal]
  | cons b rest ih =>
    show ((cond b (1 <<< bitposN i) 0) ||| pathVal rest (i + 1)).testBit t = false
    rw [Nat.testBit_or]
    have h1 : (cond b (1 <<< bitposN i) 0).testBit t = false := by
      cases b
      · simp
      · show (1 <<< bitposN i).testBit t = false
        rw [Nat.one_shiftLeft, Nat.testBit_two_pow]
        have hne := h 0 (by simp)
        simp at hne ⊢
        omega
    have h2 : (pathVal rest (i + 1)).testBit t = false := by
      apply ih
      intro k hk
      have hne := h (k + 1) (by simp; omega)
      rwa [show i + (k + 1) = i + 1 + k by omega] at hne
    rw [h1, h2]
    simp

theorem pathVal_testBit_at (p : List Bool) (i k : Nat) :
    (pathVal p i).testBit (bitposN (i + k)) = p.getD k false := by
  induction p generalizing i k with
  | nil => simp [pathVal]
  | cons b rest ih =>
    show ((cond b (1 <<< bitposN i) 0) ||| pathVal rest (i + 1)).testBit (bitposN (i + k))
        = (b :: rest).getD k false
    rw [Nat.testBit_or]
    rcases k with _ | k
    · have h1 : (cond b (1 <<< bitposN i) 0).testBit (bitposN (i + 0)) = b := by
        cases b
        · simp
        · show (1 <<< bitposN i).testBit (bitposN (i + 0)) = true
          rw [Nat.one_shiftLeft, Nat.testBit_two_pow]
          simp
      have h2 : (pathVal rest (i + 1)).testBit (bitposN (i + 0)) = false := by
        apply pathVal_testBit_other
        intro k2 _ hcon
        have := bitposN_inj _ _ hcon
        omega
      rw [h1, h2]
      simp
    · have h1 : (cond b (1 <<< bitposN i) 0).testBit (bitposN (i + (k + 1))) = false := by
        cases b
        · simp
        · show (1 <<< bitposN i).testBit (bitposN (i + (k + 1))) = false
          rw [Nat.one_shiftLeft, Nat.testBit_two_pow]
          have hne : bitposN i ≠ bitposN (i + (k + 1)) := by
            intro hcon
            have := bitposN_inj _ _ hcon
            omega
          simp [hne]
      have h2 : (pathVal rest (i + 1)).testBit (bitposN (i + (k + 1))) = rest.getD k false := by
        have := ih (i + 1) k
        rwa [show i + 1 + k = i + (k + 1) by omega] at this
      rw [h1, h2]
      simp

theorem pathVal_append (q p : List Bool) (i : Nat) :
    pathVal (q ++ p) i = pathVal q i ||| pathVal p (i + q.length) := by
  induction q generalizing i with
  | nil => simp [pathVal]
  | cons b rest ih =>
    show (cond b (1 <<< bitposN i) 0) ||| pathVal (rest ++ p) (i + 1)
        = ((cond b (1 <<< bitposN i) 0) ||| pathVal rest (i + 1)) |||
            pathVal p (i + (b :: rest).length)
    rw [ih, Nat.or_assoc, show i + 1 + rest.length = i + (b :: rest).length by
      simp only [List.length_cons]; omega]

theorem stepsFrom_pathVal (p q : List Bool) (h : q.length + p.length ≤ 64) :
    stepsFrom ⟨pathVal q 0, q.length⟩ p = ⟨pathVal (q ++ p) 0, q.length + p.length⟩ := by
  induction p generalizing q with
  | nil => simp [stepsFrom]
  | cons b rest ih =>
    have hq63 : q.length ≤ 63 := by simp at h; omega
    have hfalse : pathVal (q ++ [false]) 0 = pathVal q 0 := by
      rw [pathVal_append]
      simp [pathVal]
    have htrue : pathVal (q ++ [true]) 0 = pathVal q 0 ||| 1 <<< bitposN q.length := by
      rw [pathVal_append]
      simp [pathVal]
    have hstep : (if b then Encoding.step_right ⟨pathVal q 0, q.length⟩
        else Encoding.step_left ⟨pathVal q 0, q.length⟩)
        = ⟨pathVal (q ++ [b]) 0, (q ++ [b]).length⟩ := by
      cases b
      · show Encoding.mk (pathVal q 0) (q.length + 1) = _
        rw [hfalse]
        simp
      · show Encoding.step_right ⟨pathVal q 0, q.length⟩ = _
        rw [step_right_eq _ _ hq63 (pathVal_lt q 0 (by omega)), htrue]
        simp
    show stepsFrom (if b then Encoding.step_right ⟨pathVal q 0, q.length⟩
        else Encoding.step_left ⟨pathVal q 0, q.length⟩) rest = _
    rw [hstep]
    have hrec := ih (q ++ [b]) (by simp at h ⊢; omega)
    rw [hrec, show (q ++ [b]) ++ rest = q ++ (b :: rest) by simp]
    congr 1
    simp only [List.length_append, List.length_cons, List.length_nil]
    omega

theorem applySteps_spec (p : List Bool) (h : p.length ≤ 64) :
    applySteps p = ⟨pathVal p 0, p.length⟩ := by
  have := stepsFrom_pathVal p [] (by simpa using h)
  simpa [applySteps, stepsFrom, pathVal] using this

theorem as_bits_iter_bits (p : List Bool) (h : p.length ≤ 64) :
    (applySteps p).as_bits.iter_bits = p := by
  rw [applySteps_spec p h]
  rcases Nat.eq_zero_or_pos p.length with hm0 | hmpos
  · have hp : p = [] := List.length_eq_zero.mp hm0
    subst hp
    rfl
  · show bitsOfBytes
        ((List.range (least_bytes_repr_for_bits p.length)).map
          (fun j => (pathVal p 0 >>> (8 * j)) % 256))
        ((8 - p.length % 8) * (if p.length % 8 ≠ 0 then 1 else 0)) = p
    set m := p.length with hmdef
    set Q := least_bytes_repr_for_bits m with hQdef
    set P := (8 - m % 8) * (if m % 8 ≠ 0 then 1 else 0) with hPdef
    set bytes := (List.range Q).map (fun j => (pathVal p 0 >>> (8 * j)) % 256) with hbytes
    have hQval : Q = m / 8 + (if m % 8 ≠ 0 then 1 else 0) := rfl
    have hQpos : 1 ≤ Q := by
      rw [hQval]
      by_cases h8 : m % 8 = 0 <;> simp [h8] <;> omega
    have hblen : bytes.length = Q := by
      rw [hbytes, List.length_map, List.length_range]
    have hPle : P ≤ 7 := by
      rw [hPdef]
      by_cases h8 : m % 8 = 0 <;> simp [h8] <;> omega
    have hQm : 8 * Q ≥ m ∧ 8 * (Q - 1) < m := by
      rw [hQval]
      by_cases h8 : m % 8 = 0 <;> simp [h8] <;> omega
    have hlen : (bitsOfBytes bytes P).length = m := by
      rw [bitsOfBytes_length bytes P (by rw [← List.length_pos_iff_ne_nil]; omega), hblen]
      rw [hQval, hPdef]
      by_cases h8 : m % 8 = 0 <;> simp [h8] <;> omega
    apply List.ext_getElem (by rw [hlen])
    intro i h1 h2
    have him : i < m := by rw [hlen] at h1; exact h1
    have hdiv : i / 8 < Q := by omega
    have hgoal : (bitsOfBytes bytes P)[i]? = some (p.getD i false) := by
      rw [bitsOfBytes_getElem? bytes P i (by omega) (by rw [hblen]; omega)]
      have hbyte : bytes.getD (i / 8) 0 = (pathVal p 0 >>> (8 * (i / 8))) % 256 := by
        rw [hbytes, List.getD_eq_getElem?_getD, List.getElem?_map,
          List.getElem?_range hdiv]
        rfl
      rw [hbyte, show (256 : Nat) = 2 ^ 8 by norm_num, Nat.testBit_mod_two_pow,
        Nat.testBit_shiftRight]
      have h78 : (decide (7 - i % 8 < 8)) = true := by simp; omega
      rw [h78, Bool.true_and]
      rw [show 8 * (i / 8) + (7 - i % 8) = bitposN i from rfl]
      rw [show bitposN i = bitposN (0 + i) by simp]
      rw [pathVal_testBit_at p 0 i]
    rw [List.getElem?_eq_getElem h1] at hgoal
    have := Option.some.inj hgoal
    rw [this, List.getD_eq_getElem?_getD, List.getElem?_eq_getElem h2]
    rfl

theorem as_bits_wf (p : List Bool) (h : p.length ≤ 64) :
    paddedWF (applySteps p).as_bits.raw_data (applySteps p).as_bits.last_byte_padding := by
  rw [applySteps_spec p h]
  rcases Nat.eq_zero_or_pos p.length with hm0 | hmpos
  · have hp : p = [] := List.length_eq_zero.mp hm0
    subst hp
    refine ⟨?_, ?_, ?_⟩ <;>
      simp [paddedWF, Encoding.as_bits, least_bytes_repr_for_bits, pathVal]
  · show paddedWF
        ((List.range (least_bytes_repr_for_bits p.length)).map
          (fun j => (pathVal p 0 >>> (8 * j)) % 256))
        ((8 - p.length % 8) * (if p.length % 8 ≠ 0 then 1 else 0))
    set m := p.length with hmdef
    set Q := least_bytes_repr_for_bits m with hQdef
    set P := (8 - m % 8) * (if m % 8 ≠ 0 then 1 else 0) with hPdef
    set bytes := (List.range Q).map (fun j => (pathVal p 0 >>> (8 * j)) % 256) with hbytes
    have hQval : Q = m / 8 + (if m % 8 ≠ 0 then 1 else 0) := rfl
    have hQpos : 1 ≤ Q := by
      rw [hQval]
      by_cases h8 : m % 8 = 0 <;> simp [h8] <;> omega
    have hblen : bytes.length = Q := by
      rw [hbytes, List.length_map, List.length_range]
    have hPval : P ≤ 7 ∧ (m % 8 = 0 → P = 0) ∧ (m % 8 ≠ 0 → P = 8 - m % 8) := by
      rw [hPdef]
      by_cases h8 : m % 8 = 0 <;> simp [h8] <;> omega
    refine ⟨by omega, ?_, ?_⟩
    · intro hemp
      rw [hemp] at hblen
      simp at hblen
      omega
    · have hQ1 : Q - 1 < Q := by omega
      have hlast : bytes.getLastD 0 = (pathVal p 0 >>> (8 * (Q - 1))) % 256 := by
        rw [List.getLastD_eq_getLast?, List.getLast?_eq_getElem?, hblen]
        rw [hbytes, List.getElem?_map, List.getElem?_range hQ1]
        rfl
      rw [hlast, low_bits_zero_iff]
      intro t ht
      rw [show (256 : Nat) = 2 ^ 8 by norm_num, Nat.testBit_mod_two_pow]
      have ht8 : t < 8 := by omega
      rw [Nat.testBit_shiftRight]
      have := pathVal_testBit_other p 0 (8 * (Q - 1) + t) (by
        intro k hk hcon
        rw [show (0 + k) = k by omega] at hcon
        unfold bitposN at hcon
        rw [hQval] at hcon
        rcases hPval with ⟨_, hP0, hPne⟩
        by_cases h8 : m % 8 = 0
        · rw [hP0 h8] at ht
          omega
        · rw [hPne h8] at ht
          simp [h8] at hcon
          omega)
      rw [this]
      simp

/-! ## Tree serialization -/

/-- Parsing a serialized tree followed by arbitrary trailing bytes
succeeds, consumes exactly the serialized length, and returns the
stripped tree (counts zeroed, values sent through the codec). -/
theorem deserialize_serialize {U : Type} [DecidableEq U] (c : SymbolCodec U)
    (hlen : ∀ v, (c.toBytes v).length = c.size) (t : Node U) (rest : List Nat) :
    Node.deserialize c (t.serialize c ++ rest)
      = Except.ok (stripNode c t, (t.serialize c).length) := by
  induction t generalizing rest with
  | leaf cnt v =>
    show Node.deserialize c (0 :: (c.toBytes v ++ rest)) = _
    rw [Node.deserialize]
    have h2 : ¬((c.toBytes v ++ rest).length + 1 < 1 + c.size) := by
      simp [hlen]
      omega
    rw [List.take_left' (hlen v)]
    rw [show (Node.leaf cnt v).serialize c = 0 :: c.toBytes v from rfl]
    simp [stripNode, hlen]
    rw [if_neg (by omega)]
    rw [Nat.add_comm 1 c.size]
  | parent cnt l r ihl ihr =>
    show Node.deserialize c (1 :: ((l.serialize c ++ r.serialize c) ++ rest)) = _
    rw [Node.deserialize, List.append_assoc]
    have e1 : Node.deserialize c (l.serialize c ++ (r.serialize c ++ rest))
        = Except.ok (stripNode c l, (l.serialize c).length) := ihl _
    have e2 : (l.serialize c ++ (r.serialize c ++ rest)).drop (l.serialize c).length
        = r.serialize c ++ rest := by simp
    simp only [e1, e2, ihr rest]
    rw [show (Node.parent cnt l r).serialize c
        = 1 :: (l.serialize c ++ r.serialize c) from rfl]
    simp [stripNode]
    omega

theorem stripNode_nodeEq {U : Type} [DecidableEq U] (c : SymbolCodec U)
    (hrt : ∀ v, c.ofBytes (c.toBytes v) = v) (t : Node U) :
    (stripNode c t).nodeEq t = true := by
  induction t with
  | parent cnt l r ihl ihr => simp [stripNode, Node.nodeEq, ihl, ihr]
  | leaf cnt v => simp [stripNode, Node.nodeEq, hrt]

theorem stripNode_countsZero {U : Type} [DecidableEq U] (c : SymbolCodec U) (t : Node U) :
    (stripNode c t).countsZero = true := by
  induction t with
  | parent cnt l r ihl ihr => simp [stripNode, Node.countsZero, ihl, ihr]
  | leaf cnt v => simp [stripNode, Node.countsZero]

/-- Failure of tree deserialization is exactly characterised by the
malformedTreeBytes taxonomy. -/
theorem deserialize_error_iff {U : Type} [DecidableEq U] (c : SymbolCodec U) :
    ∀ buf : List Nat, (∃ e, Node.deserialize c buf = Except.error e)
      ↔ malformedTreeBytes c buf = true := by
  have main : ∀ (n : Nat) (buf : List Nat), buf.length ≤ n →
      ((∃ e, Node.deserialize c buf = Except.error e)
        ↔ malformedTreeBytes c buf = true) := by
    intro n
    induction n with
    | zero =>
      intro buf hbuf
      have hb : buf = [] := List.length_eq_zero.mp (by omega)
      subst hb
      exact ⟨fun _ => by rw [malformedTreeBytes],
        fun _ => ⟨NodeDeserializationError.missingNodeTypeSpecifier, by rw [Node.deserialize]⟩⟩
    | succ n ih =>
      intro buf hbuf
      match buf with
      | [] =>
        exact ⟨fun _ => by rw [malformedTreeBytes],
          fun _ => ⟨NodeDeserializationError.missingNodeTypeSpecifier, by rw [Node.deserialize]⟩⟩
      | tag :: rest =>
        have hrlen : rest.length ≤ n := by simp at hbuf; omega
        rw [Node.deserialize, malformedTreeBytes]
        by_cases h1 : 1 < tag
        · simp [h1]
        · by_cases h0 : tag = 0
          · by_cases hlen2 : rest.length + 1 < 1 + c.size
            · simp [h1, h0, hlen2]
            · simp [h1, h0, hlen2]
          · cases hl : Node.deserialize c rest with
            | error e =>
              have hm : malformedTreeBytes c rest = true := (ih rest hrlen).mp ⟨e, hl⟩
              simp [h1, h0, hl, hm]
            | ok p =>
              obtain ⟨left, read1⟩ := p
              have hnm : malformedTreeBytes c rest = false := by
                have hne : ¬∃ e, Node.deserialize c rest = Except.error e := by
                  simp [hl]
                rcases hb : malformedTreeBytes c rest with _ | _
                · rfl
                · exact absurd ((ih rest hrlen).mpr hb) hne
              have hdlen : (rest.drop read1).length ≤ n := by
                simp [List.length_drop]
                omega
              cases hr : Node.deserialize c (rest.drop read1) with
              | error e2 =>
                have hm2 : malformedTreeBytes c (rest.drop read1) = true :=
                  (ih _ hdlen).mp ⟨e2, hr⟩
                simp [h1, h0, hl, hr, hm2, hnm]
              | ok p2 =>
                have hnm2 : malformedTreeBytes c (rest.drop read1) = false := by
                  have hne : ¬∃ e, Node.deserialize c (rest.drop read1)
                      = Except.error e := by
                    simp [hr]
                  rcases hb : malformedTreeBytes c (rest.drop read1) with _ | _
                  · rfl
                  · exact absurd ((ih _ hdlen).mpr hb) hne
                obtain ⟨right, read2⟩ := p2
                simp [h1, h0, hl, hr, hnm, hnm2]
  exact fun buf => main buf.length buf (le_refl _)

/-! ## Single-symbol inputs -/

theorem dedup_replicate {U : Type} [DecidableEq U] (a : U) (n : Nat) (hn : 1 ≤ n) :
    (List.replicate n a).dedup = [a] := by
  induction n with
  | zero => omega
  | succ n ih =>
    rcases Nat.eq_zero_or_pos n with h0 | hpos
    · subst h0
      simp
    · rw [List.replicate_succ, List.dedup_cons_of_mem
        (List.mem_replicate.mpr ⟨by omega, rfl⟩)]
      exact ih hpos

theorem value_frequencies_replicate {U : Type} [DecidableEq U] (a : U) (n : Nat)
    (hn : 1 ≤ n) : value_frequencies (List.replicate n a) = [(a, n)] := by
  unfold value_frequencies
  rw [dedup_replicate a n hn]
  simp

theorem encodeBits_single_leaf {U : Type} [DecidableEq U] (cnt : Nat) (a : U)
    (data : List U) (hall : ∀ v ∈ data, v = a) :
    encodeBits (Node.leaf cnt a) data = some BitVec.new := by
  induction data with
  | nil => rfl
  | cons v rest ih =>
    have hv : v = a := hall v (by simp)
    subst hv
    show List.foldlM _ BitVec.new (v :: rest) = some BitVec.new
    rw [List.foldlM_cons]
    have hf : (Node.leaf cnt v).encode Encoding.new_zeroed v = some Encoding.new_zeroed := by
      simp [Node.encode]
    rw [hf]
    show List.foldlM _ (BitVec.new.extend_from_bits Encoding.new_zeroed.as_bits) rest
        = some BitVec.new
    rw [show BitVec.new.extend_from_bits Encoding.new_zeroed.as_bits = BitVec.new from rfl]
    exact ih (fun w hw => hall w (by simp [hw]))

theorem compressWith_replicate {U : Type} [DecidableEq U] (c : SymbolCodec U) (a : U)
    (n : Nat) :
    compressWith c [(a, n)] (List.replicate n a) = some ((0 :: c.toBytes a) ++ [0]) := by
  unfold compressWith
  simp only [show (buildTree (sort_frequencies [(a, n)]) : EncodingTree U).root
      = some (Node.leaf n a) from rfl,
    encodeBits_single_leaf n a (List.replicate n a)
      (fun v hv => (List.mem_replicate.mp hv).2)]
  rfl

theorem compress_replicate {U : Type} [DecidableEq U] (c : SymbolCodec U) (a : U)
    (n : Nat) (hn : 1 ≤ n) :
    compress c (List.replicate n a) = some ((0 :: c.toBytes a) ++ [0]) := by
  have h1 : compress c (List.replicate n a)
      = compressWith c [(a, n)] (List.replicate n a) := by
    unfold compress
    rw [value_frequencies_replicate a n hn]
  rw [h1, compressWith_replicate]

theorem validFreqs_singleton {U : Type} [DecidableEq U] (a : U)
    (freqs : List (U × Nat)) (h : validFreqs [a] freqs) : freqs = [(a, 1)] := by
  obtain ⟨hnd, hmem, hcov⟩ := h
  cases freqs with
  | nil => simpa using hcov a (by simp)
  | cons p rest =>
    have hp : p.1 = a ∧ p.2 = 1 := by
      obtain ⟨hin, hcnt⟩ := hmem p (by simp)
      simp at hin
      exact ⟨hin, by rw [hcnt, hin]; simp⟩
    have hrest : rest = [] := by
      cases rest with
      | nil => rfl
      | cons p2 rest2 =>
        obtain ⟨hin2, _⟩ := hmem p2 (by simp)
        simp at hin2
        have : p.1 ∉ (p2 :: rest2).map Prod.fst := (List.nodup_cons.mp hnd).1
        exact absurd (by
          rw [hp.1]
          exact List.mem_map.mpr ⟨p2, by simp, hin2⟩) this
    rw [hrest]
    have : p = (a, 1) := Prod.ext hp.1 hp.2
    rw [this]

theorem decompress_leaf_blob {U : Type} [DecidableEq U] (c : SymbolCodec U)
    (hlen : ∀ v, (c.toBytes v).length = c.size)
    (hrt : ∀ v, c.ofBytes (c.toBytes v) = v) (a : U) :
    decompress c ((0 :: c.toBytes a) ++ [0]) = DecompressOutcome.ok [a] := by
  unfold decompress
  have h1 : DecodingTree.deserialize c ((0 :: c.toBytes a) ++ [0])
      = Except.ok (⟨Node.leaf 0 a⟩, 1 + c.size) := by
    rw [DecodingTree.deserialize]
    have hd := deserialize_serialize c hlen (Node.leaf 0 a) [0]
    rw [show (Node.leaf 0 a).serialize c = 0 :: c.toBytes a from rfl] at hd
    rw [hd]
    simp [stripNode, hrt, hlen]
    omega
  rw [h1]
  have h2 : ((0 :: c.toBytes a) ++ [0]).drop (1 + c.size) = [0] := by
    apply List.drop_left'
    simp [hlen]
    omega
  simp only [h2]
  rfl

/-! ## Determinism of the sorted frequency list -/

theorem validFreqs_perm {U : Type} [DecidableEq U] (data : List U)
    (f1 f2 : List (U × Nat)) (h1 : validFreqs data f1) (h2 : validFreqs data f2) :
    f1.Perm f2 := by
  obtain ⟨hnd1, hmem1, hcov1⟩ := h1
  obtain ⟨hnd2, hmem2, hcov2⟩ := h2
  rw [List.perm_ext_iff_of_nodup (hnd1.of_map) (hnd2.of_map)]
  intro p
  constructor
  · intro hp
    obtain ⟨hin, hcnt⟩ := hmem1 p hp
    obtain ⟨q, hq, hqp⟩ := List.mem_map.mp (hcov2 p.1 hin)
    obtain ⟨hin2, hcnt2⟩ := hmem2 q hq
    have : q = p := by
      have : q.2 = p.2 := by rw [hcnt2, hqp, ← hcnt]
      exact Prod.ext hqp this
    rwa [← this]
  · intro hp
    obtain ⟨hin, hcnt⟩ := hmem2 p hp
    obtain ⟨q, hq, hqp⟩ := List.mem_map.mp (hcov1 p.1 hin)
    obtain ⟨hin1, hcnt1⟩ := hmem1 q hq
    have : q = p := by
      have : q.2 = p.2 := by rw [hcnt1, hqp, ← hcnt]
      exact Prod.ext hqp this
    rwa [← this]

theorem sorted_unique_of_snd_nodup {U : Type} :
    ∀ (f1 f2 : List (U × Nat)), f1.Perm f2 →
      f1.Sorted (fun a b => a.2 ≤ b.2) → f2.Sorted (fun a b => a.2 ≤ b.2) →
      (f1.map Prod.snd).Nodup → f1 = f2 := by
  intro f1
  induction f1 with
  | nil =>
    intro f2 hperm _ _ _
    exact (hperm.nil_eq).symm ▸ rfl
  | cons p t1 ih =>
    intro f2 hperm hs1 hs2 hnd
    cases f2 with
    | nil => exact absurd hperm.symm.nil_eq (by simp)
    | cons q t2 =>
      have hnd2 : (p.2 :: t1.map Prod.snd).Nodup := hnd
      have hndparts := List.nodup_cons.mp hnd2
      have hpq : p = q := by
        by_contra hne
        have hpmem : p ∈ q :: t2 := hperm.mem_iff.mp (by simp)
        have hqmem : q ∈ p :: t1 := hperm.mem_iff.mpr (by simp)
        have hp2 : p ∈ t2 := by
          rcases List.mem_cons.mp hpmem with h | h
          · exact absurd h hne
          · exact h
        have hq1 : q ∈ t1 := by
          rcases List.mem_cons.mp hqmem with h | h
          · exact absurd h.symm hne
          · exact h
        have hle1 : p.2 ≤ q.2 := (List.sorted_cons.mp hs1).1 q hq1
        have hle2 : q.2 ≤ p.2 := (List.sorted_cons.mp hs2).1 p hp2
        have heq2 : p.2 = q.2 := Nat.le_antisymm hle1 hle2
        exact hndparts.1 (by
          rw [heq2]
          exact List.mem_map.mpr ⟨q, hq1, rfl⟩)
      subst hpq
      have htperm : t1.Perm t2 := hperm.cons_inv
      have := ih t2 htperm (List.sorted_cons.mp hs1).2 (List.sorted_cons.mp hs2).2
        hndparts.2
      rw [this]

theorem sort_frequencies_eq_of_validFreqs {U : Type} [DecidableEq U] (data : List U)
    (f1 f2 : List (U × Nat)) (h1 : validFreqs data f1) (h2 : validFreqs data f2)
    (hinj : ∀ v ∈ data, ∀ w ∈ data, data.count v = data.count w → v = w) :
    sort_frequencies f1 = sort_frequencies f2 := by
  have hperm : (sort_frequencies f1).Perm (sort_frequencies f2) :=
    ((List.perm_insertionSort _ f1).trans (validFreqs_perm data f1 f2 h1 h2)).trans
      (List.perm_insertionSort _ f2).symm
  have hsnd : (f1.map Prod.snd).Nodup := by
    obtain ⟨hnd1, hmem1, _⟩ := h1
    rw [List.nodup_map_iff_inj_on hnd1.of_map]
    intro p hp q hq hsndeq
    obtain ⟨hpin, hpc⟩ := hmem1 p hp
    obtain ⟨hqin, hqc⟩ := hmem1 q hq
    have hkey : p.1 = q.1 := hinj p.1 hpin q.1 hqin (by rw [← hpc, ← hqc, hsndeq])
    exact Prod.ext hkey hsndeq
  apply sorted_unique_of_snd_nodup _ _ hperm
    (List.sorted_insertionSort _ f1) (List.sorted_insertionSort _ f2)
  have : ((sort_frequencies f1).map Prod.snd).Perm (f1.map Prod.snd) :=
    (List.perm_insertionSort _ f1).map Prod.snd
  exact this.nodup_iff.mpr hsnd

/-! ## Tree construction facts -/

theorem insert_mem_leavesVals {U : Type} [DecidableEq U] (t : Node U) (f : Nat) (v w : U) :
    w ∈ (t.insert f v).leavesVals ↔ w = v ∨ w ∈ t.leavesVals := by
  induction t with
  | parent c l r ihl ihr =>
    rw [Node.insert]
    by_cases hc : r.count > l.count
    · rw [if_pos hc]
      show w ∈ (l.insert f v).leavesVals ++ r.leavesVals ↔ _
      show _ ↔ _ ∨ w ∈ l.leavesVals ++ r.leavesVals
      simp only [List.mem_append, ihl]
      tauto
    · rw [if_neg hc]
      show w ∈ l.leavesVals ++ (r.insert f v).leavesVals ↔ _
      show _ ↔ _ ∨ w ∈ l.leavesVals ++ r.leavesVals
      simp only [List.mem_append, ihr]
      tauto
  | leaf c u =>
    show w ∈ [u] ++ [v] ↔ w = v ∨ w ∈ [u]
    simp
    tauto

theorem insert_isParent {U : Type} [DecidableEq U] (t : Node U) (f : Nat) (v : U) :
    ∃ c l r, t.insert f v = Node.parent c l r := by
  cases t with
  | parent c l r =>
    rw [Node.insert]
    by_cases hc : r.count > l.count
    · exact ⟨_, _, _, if_pos hc⟩
    · exact ⟨_, _, _, if_neg hc⟩
  | leaf c u => exact ⟨_, _, _, rfl⟩

theorem foldl_add_value_some {U : Type} [DecidableEq U] :
    ∀ (fs : List (U × Nat)) (t0 : Node U) (k : Nat),
    ∃ t1, (fs.foldl (fun t p => t.add_value p.2 p.1)
        (⟨some t0, k⟩ : EncodingTree U)).root = some t1 ∧
      (∀ w ∈ t0.leavesVals, w ∈ t1.leavesVals) ∧
      (∀ p ∈ fs, p.1 ∈ t1.leavesVals) ∧
      ((∃ c l r, t0 = Node.parent c l r) → ∃ c l r, t1 = Node.parent c l r) := by
  intro fs
  induction fs with
  | nil => exact fun t0 k => ⟨t0, rfl, fun w hw => hw, by simp, fun h => h⟩
  | cons p fs ih =>
    intro t0 k
    have hstep : (List.foldl (fun t p => t.add_value p.2 p.1)
          (⟨some t0, k⟩ : EncodingTree U) (p :: fs))
        = List.foldl (fun t p => t.add_value p.2 p.1)
          (⟨some (t0.insert p.2 p.1), k + 1⟩ : EncodingTree U) fs := rfl
    rw [hstep]
    obtain ⟨t1, hroot, hold, hnew, hpar⟩ := ih (t0.insert p.2 p.1) (k + 1)
    refine ⟨t1, hroot, ?_, ?_, ?_⟩
    · intro w hw
      exact hold w ((insert_mem_leavesVals t0 p.2 p.1 w).mpr (Or.inr hw))
    · intro q hq
      rcases List.mem_cons.mp hq with h | h
      · subst h
        exact hold q.1 ((insert_mem_leavesVals t0 q.2 q.1 q.1).mpr (Or.inl rfl))
      · exact hnew q h
    · intro _
      exact hpar (insert_isParent t0 p.2 p.1)

theorem buildTree_spec {U : Type} [DecidableEq U] (q : U × Nat) (fs : List (U × Nat)) :
    ∃ t, (buildTree (q :: fs)).root = some t ∧
      (∀ p ∈ q :: fs, p.1 ∈ t.leavesVals) ∧
      (1 ≤ fs.length → ∃ c l r, t = Node.parent c l r) := by
  have hstep : buildTree (q :: fs)
      = fs.foldl (fun t p => t.add_value p.2 p.1)
          (⟨some (Node.leaf q.2 q.1), 1⟩ : EncodingTree U) := rfl
  rw [hstep]
  cases fs with
  | nil =>
    exact ⟨Node.leaf q.2 q.1, rfl, by simp [Node.leavesVals], by simp⟩
  | cons p fs =>
    have hstep2 : List.foldl (fun t p => t.add_value p.2 p.1)
          (⟨some (Node.leaf q.2 q.1), 1⟩ : EncodingTree U) (p :: fs)
        = List.foldl (fun t p => t.add_value p.2 p.1)
          (⟨some ((Node.leaf q.2 q.1).insert p.2 p.1), 2⟩ : EncodingTree U) fs := rfl
    rw [hstep2]
    obtain ⟨t1, hroot, hold, hnew, hpar⟩ := foldl_add_value_some fs
      ((Node.leaf q.2 q.1).insert p.2 p.1) 2
    refine ⟨t1, hroot, ?_, fun _ => hpar (insert_isParent _ _ _)⟩
    intro w hw
    rcases List.mem_cons.mp hw with h | h
    · subst h
      exact hold w.1 ((insert_mem_leavesVals _ _ _ _).mpr
        (Or.inr (by simp [Node.leavesVals])))
    · rcases List.mem_cons.mp h with h2 | h2
      · subst h2
        exact hold w.1 ((insert_mem_leavesVals _ _ _ _).mpr (Or.inl rfl))
      · exact hnew w h2

theorem pathTo_of_mem {U : Type} [DecidableEq U] (t : Node U) (w : U)
    (h : w ∈ t.leavesVals) : ∃ p, t.pathTo w = some p := by
  induction t with
  | parent c l r ihl ihr =>
    rw [Node.pathTo]
    cases hl : l.pathTo w with
    | some p => exact ⟨false :: p, rfl⟩
    | none =>
      have hwr : w ∈ r.leavesVals := by
        rcases List.mem_append.mp h with hmem | hmem
        · obtain ⟨p, hp⟩ := ihl hmem
          rw [hp] at hl
          cases hl
        · exact hmem
      obtain ⟨p, hp⟩ := ihr hwr
      exact ⟨true :: p, by rw [hp]; rfl⟩
  | leaf c u =>
    have huw : u = w := by
      have hw : w ∈ [u] := h
      exact (List.mem_singleton.mp hw).symm
    exact ⟨[], by simp [Node.pathTo, huw]⟩

theorem pathTo_length_le_height {U : Type} [DecidableEq U] (t : Node U) (w : U)
    (p : List Bool) (h : t.pathTo w = some p) : p.length ≤ t.height := by
  induction t generalizing p with
  | parent c l r ihl ihr =>
    rw [Node.pathTo] at h
    cases hl : l.pathTo w with
    | some q =>
      rw [hl] at h
      cases h
      have := ihl q hl
      show q.length + 1 ≤ 1 + max l.height r.height
      omega
    | none =>
      rw [hl] at h
      cases hr : r.pathTo w with
      | some q =>
        rw [hr] at h
        cases h
        have := ihr q hr
        show q.length + 1 ≤ 1 + max l.height r.height
        omega
      | none =>
        rw [hr] at h
        cases h
  | leaf c u =>
    rw [Node.pathTo] at h
    by_cases hc : u = w
    · rw [if_pos hc] at h
      cases h
      simp [Node.height]
    · rw [if_neg hc] at h
      cases h

theorem pathTo_parent_ne_nil {U : Type} [DecidableEq U] (c : Nat) (l r : Node U)
    (w : U) (p : List Bool) (h : (Node.parent c l r).pathTo w = some p) : p ≠ [] := by
  rw [Node.pathTo] at h
  cases hl : l.pathTo w with
  | some q =>
    rw [hl] at h
    cases h
    simp
  | none =>
    rw [hl] at h
    cases hr : r.pathTo w with
    | some q =>
      rw [hr] at h
      cases h
      simp
    | none =>
      rw [hr] at h
      cases h

theorem encode_eq_pathTo {U : Type} [DecidableEq U] (t : Node U) (e : Encoding) (v : U) :
    t.encode e v = (t.pathTo v).map (fun p => stepsFrom e p) := by
  induction t generalizing e with
  | parent c l r ihl ihr =>
    rw [Node.encode, Node.pathTo]
    cases hl : l.pathTo v with
    | some p =>
      rw [ihl e.step_left, hl]
      rfl
    | none =>
      rw [ihl e.step_left, hl]
      show r.encode e.step_right v = _
      rw [ihr e.step_right]
      cases hr : r.pathTo v with
      | some p => rfl
      | none => rfl
  | leaf c u =>
    rw [Node.encode, Node.pathTo]
    by_cases hc : u = v
    · rw [if_pos hc, if_pos hc]
      rfl
    · rw [if_neg hc, if_neg hc]
      rfl

theorem stripNode_pathTo {U : Type} [DecidableEq U] (c : SymbolCodec U)
    (hrt : ∀ v, c.ofBytes (c.toBytes v) = v) (t : Node U) (v : U) :
    (stripNode c t).pathTo v = t.pathTo v := by
  induction t with
  | parent cnt l r ihl ihr =>
    show Node.pathTo (Node.parent 0 (stripNode c l) (stripNode c r)) v = _
    rw [Node.pathTo, Node.pathTo, ihl, ihr]
  | leaf cnt u =>
    show Node.pathTo (Node.leaf 0 (c.ofBytes (c.toBytes u))) v = _
    rw [Node.pathTo, Node.pathTo, hrt u]

/-! ## Encoder and decoder correctness -/

theorem encodeBits_fold {U : Type} [DecidableEq U] (t : Node U) :
    ∀ (data : List U) (bv0 : BitVec),
    paddedWF bv0.raw_data bv0.last_byte_padding →
    (∀ v ∈ data, ∃ p, t.pathTo v = some p ∧ p.length ≤ 64) →
    ∃ bv, List.foldlM
        (fun encoded ch => (t.encode Encoding.new_zeroed ch).map
          (fun e => encoded.extend_from_bits e.as_bits)) bv0 data = some bv ∧
      paddedWF bv.raw_data bv.last_byte_padding ∧
      bv.iter_bits = bv0.iter_bits ++ pathBitsOf t data := by
  intro data
  induction data with
  | nil =>
    intro bv0 hwf _
    exact ⟨bv0, rfl, hwf, by simp [pathBitsOf]⟩
  | cons v rest ih =>
    intro bv0 hwf hpaths
    obtain ⟨p, hp, hp64⟩ := hpaths v (by simp)
    have henc : t.encode Encoding.new_zeroed v = some (applySteps p) := by
      rw [encode_eq_pathTo, hp]
      rfl
    rw [List.foldlM_cons]
    rw [show (t.encode Encoding.new_zeroed v).map
        (fun e => bv0.extend_from_bits e.as_bits)
        = some (bv0.extend_from_bits (applySteps p).as_bits) by rw [henc]; rfl]
    obtain ⟨hext, hextwf⟩ := extend_from_bits_spec bv0 (applySteps p).as_bits hwf
      (as_bits_wf p hp64)
    obtain ⟨bv, hfold, hbvwf, hbits⟩ := ih (bv0.extend_from_bits (applySteps p).as_bits)
      hextwf (fun w hw => hpaths w (by simp [hw]))
    refine ⟨bv, hfold, hbvwf, ?_⟩
    rw [hbits, hext, as_bits_iter_bits p hp64]
    rw [show pathBitsOf t (v :: rest) = p ++ pathBitsOf t rest by
      show (t.pathTo v).getD [] ++ pathBitsOf t rest = _
      rw [hp]
      rfl]
    simp

theorem decodeLoop_acc {U : Type} [DecidableEq U] (R : Node U) :
    ∀ (bits : List Bool) (node : Node U) (flag : Bool) (acc : List U),
    decodeLoop R bits node flag acc
      = match decodeLoop R bits node flag [] with
        | DecodeOutcome.ok xs => DecodeOutcome.ok (acc ++ xs)
        | DecodeOutcome.err e => DecodeOutcome.err e
        | DecodeOutcome.panicked => DecodeOutcome.panicked := by
  intro bits
  induction bits with
  | nil =>
    intro node flag acc
    cases node with
    | leaf cnt w => simp [decodeLoop]
    | parent cnt l r =>
      by_cases hf : flag
      · simp [decodeLoop, hf]
      · simp [decodeLoop, hf]
  | cons b rest ih =>
    intro node flag acc
    cases node with
    | leaf cnt w => simp [decodeLoop]
    | parent cnt l r =>
      rw [decodeLoop]
      rw [show decodeLoop R (b :: rest) (Node.parent cnt l r) flag []
          = match (if b then r else l) with
            | Node.parent _ _ _ => decodeLoop R rest (if b then r else l) false []
            | Node.leaf _ value => decodeLoop R rest R true ([] ++ [value])
          from by rw [decodeLoop]]
      cases hnext : (if b then r else l) with
      | parent c2 l2 r2 =>
        show decodeLoop R rest (Node.parent c2 l2 r2) false acc
            = match decodeLoop R rest (Node.parent c2 l2 r2) false [] with
              | DecodeOutcome.ok xs => DecodeOutcome.ok (acc ++ xs)
              | DecodeOutcome.err e => DecodeOutcome.err e
              | DecodeOutcome.panicked => DecodeOutcome.panicked
        exact ih (Node.parent c2 l2 r2) false acc
      | leaf c2 w =>
        show decodeLoop R rest R true (acc ++ [w])
            = match decodeLoop R rest R true ([] ++ [w]) with
              | DecodeOutcome.ok xs => DecodeOutcome.ok (acc ++ xs)
              | DecodeOutcome.err e => DecodeOutcome.err e
              | DecodeOutcome.panicked => DecodeOutcome.panicked
        rw [ih R true (acc ++ [w]), ih R true ([] ++ [w])]
        cases decodeLoop R rest R true [] <;> simp

theorem decodeLoop_follow {U : Type} [DecidableEq U] (R : Node U) :
    ∀ (q : List Bool) (node : Node U) (v : U) (rest : List Bool) (flag : Bool)
      (acc : List U), node.pathTo v = some q → q ≠ [] →
      decodeLoop R (q ++ rest) node flag acc = decodeLoop R rest R true (acc ++ [v]) := by
  intro q
  induction q with
  | nil => exact fun node v rest flag acc _ hne => absurd rfl hne
  | cons b q2 ih =>
    intro node v rest flag acc hpath _
    cases node with
    | leaf cnt u =>
      rw [Node.pathTo] at hpath
      by_cases hc : u = v
      · rw [if_pos hc] at hpath
        cases hpath
      · rw [if_neg hc] at hpath
        cases hpath
    | parent cnt l r =>
      have hchild : (if b then r else l).pathTo v = some q2 := by
        rw [Node.pathTo] at hpath
        cases hl : l.pathTo v with
        | some pl =>
          rw [hl] at hpath
          have hb : b = false ∧ q2 = pl := by
            have := Option.some.inj hpath
            constructor
            · exact (List.cons.injEq _ _ _ _ ▸ this).1.symm
            · exact (List.cons.injEq _ _ _ _ ▸ this).2.symm
          rw [hb.1, if_neg (by simp), hb.2]
          exact hl
        | none =>
          rw [hl] at hpath
          cases hr : r.pathTo v with
          | some pr =>
            rw [hr] at hpath
            simp at hpath
            obtain ⟨hb, hq⟩ := hpath
            rw [← hb, if_pos rfl, ← hq]
            exact hr
          | none =>
            rw [hr] at hpath
            cases hpath
      rw [show decodeLoop R ((b :: q2) ++ rest) (Node.parent cnt l r) flag acc
          = match (if b then r else l) with
            | Node.parent c2 l2 r2 => decodeLoop R (q2 ++ rest) (if b then r else l) false acc
            | Node.leaf _ value => decodeLoop R (q2 ++ rest) R true (acc ++ [value])
          from by rw [List.cons_append, decodeLoop]]
      cases hnext : (if b then r else l) with
      | parent c2 l2 r2 =>
        try rw [hnext] at hchild
        show decodeLoop R (q2 ++ rest) (Node.parent c2 l2 r2) false acc
            = decodeLoop R rest R true (acc ++ [v])
        have hq2ne : q2 ≠ [] := by
          intro hq2
          rw [hq2, Node.pathTo] at hchild
          cases hl2 : (Node.pathTo l2 v) with
          | some pl2 =>
            rw [hl2] at hchild
            cases hchild
          | none =>
            rw [hl2] at hchild
            cases hr2 : (Node.pathTo r2 v) with
            | some pr2 =>
              rw [hr2] at hchild
              cases hchild
            | none =>
              rw [hr2] at hchild
              cases hchild
        exact ih (Node.parent c2 l2 r2) v rest false acc hchild hq2ne
      | leaf c2 w =>
        try rw [hnext] at hchild
        show decodeLoop R (q2 ++ rest) R true (acc ++ [w])
            = decodeLoop R rest R true (acc ++ [v])
        have hq2 : q2 = [] ∧ w = v := by
          rw [Node.pathTo] at hchild
          by_cases hc : w = v
          · rw [if_pos hc] at hchild
            exact ⟨(Option.some.inj hchild).symm, hc⟩
          · rw [if_neg hc] at hchild
            cases hchild
        rw [hq2.1, hq2.2]
        simp

theorem decodeLoop_concat {U : Type} [DecidableEq U] (R : Node U)
    (hpar : ∃ c l r, R = Node.parent c l r) :
    ∀ (data acc : List U), (∀ v ∈ data, ∃ p, R.pathTo v = some p) →
      decodeLoop R (pathBitsOf R data) R true acc = DecodeOutcome.ok (acc ++ data) := by
  intro data
  induction data with
  | nil =>
    intro acc _
    obtain ⟨c, l, r, hR⟩ := hpar
    rw [show pathBitsOf R [] = [] from rfl, hR]
    simp [decodeLoop]
  | cons v rest ih =>
    intro acc hpaths
    obtain ⟨p, hp⟩ := hpaths v (by simp)
    have hpne : p ≠ [] := by
      obtain ⟨c, l, r, hR⟩ := hpar
      exact pathTo_parent_ne_nil c l r v p (hR ▸ hp)
    rw [show pathBitsOf R (v :: rest) = p ++ pathBitsOf R rest by
      show (R.pathTo v).getD [] ++ pathBitsOf R rest = _
      rw [hp]
      rfl]
    rw [decodeLoop_follow R p R v (pathBitsOf R rest) true acc hp hpne]
    rw [ih (acc ++ [v]) (fun w hw => hpaths w (by simp [hw]))]
    simp

theorem pathBitsOf_strip {U : Type} [DecidableEq U] (c : SymbolCodec U)
    (hrt : ∀ v, c.ofBytes (c.toBytes v) = v) (t : Node U) (data : List U) :
    pathBitsOf (stripNode c t) data = pathBitsOf t data := by
  induction data with
  | nil => rfl
  | cons v rest ih =>
    show ((stripNode c t).pathTo v).getD [] ++ pathBitsOf (stripNode c t) rest = _
    rw [stripNode_pathTo c hrt, ih]
    rfl

/-! ## Parser prefix lemmas -/

/-- C7: tree deserialization fails with a typed malformed-tree error
exactly when the tag byte is absent, the tag value is neither 0 nor 1,
or a leaf tag is followed by fewer than sizeof symbol bytes, including
the same conditions arising while parsing either subtree of a parent
tag (the malformedTreeBytes taxonomy); and for a symbol type of nonzero
size, decompress of the single byte 0x00 fails with the
missing-unit-data malformed-tree error rather than panicking. -/
theorem tree_deserialization_error_taxonomy {U : Type} [DecidableEq U]
    (c : SymbolCodec U) (hsz : 1 ≤ c.size) :
    (∀ buf : List Nat, (∃ e, Node.deserialize c buf = Except.error e)
      ↔ malformedTreeBytes c buf = true) ∧
    decompress c [0] = DecompressOutcome.err
      (DecompressionError.invalidDecodingTree
        NodeDeserializationError.missingNodeUnitData) := by
  refine ⟨deserialize_error_iff c, ?_⟩
  rw [decompress]
  rw [show DecodingTree.deserialize c [0]
      = Except.error NodeDeserializationError.missingNodeUnitData by
    rw [DecodingTree.deserialize, Node.deserialize]
    simp
    rw [if_pos (show 0 < c.size by omega)]]

/-- Witness for C7 at the byte codec: the taxonomy applied to the
invalid tag byte 2, and the concrete single-byte input 0x00. -/
theorem tree_deserialization_error_taxonomy_witness :
    ((∃ e, Node.deserialize byteCodec [2] = Except.error e)
      ↔ malformedTreeBytes byteCodec [2] = true) ∧
    decompress byteCodec [0] = DecompressOutcome.err
      (DecompressionError.invalidDecodingTree
        NodeDeserializationError.missingNodeUnitData) :=
  ⟨(tree_deserialization_error_taxonomy byteCodec (by decide)).1 [2],
   (tree_deserialization_error_taxonomy byteCodec (by decide)).2⟩

/-- C10: serializing any tree and deserializing the produced bytes
succeeds, consumes exactly the serialized length, and returns a tree
whose counts are all zero and which is equal to the original under the
PartialEq relation of Node (structure and leaf values only), provided
the symbol codec writes fixed-size byte representations that
reconstruct equal values. -/
theorem tree_serialization_roundtrip {U : Type} [DecidableEq U] (c : SymbolCodec U)
    (hlen : ∀ v, (c.toBytes v).length = c.size)
    (hrt : ∀ v, c.ofBytes (c.toBytes v) = v) (t : Node U) :
    Node.deserialize c (t.serialize c)
        = Except.ok (stripNode c t, (t.serialize c).length) ∧
    (stripNode c t).nodeEq t = true ∧ (stripNode c t).countsZero = true := by
  refine ⟨?_, stripNode_nodeEq c hrt t, stripNode_countsZero c t⟩
  have h := deserialize_serialize c hlen t []
  simpa using h

/-- Witness for C10 at the byte codec and a three-leaf tree. -/
theorem tree_serialization_roundtrip_witness :
    Node.deserialize byteCodec
        ((Node.parent 9 (Node.parent 5 (Node.leaf 2 (1 : Fin 256)) (Node.leaf 3 2))
          (Node.leaf 4 7)).serialize byteCodec)
      = Except.ok (stripNode byteCodec
          (Node.parent 9 (Node.parent 5 (Node.leaf 2 1) (Node.leaf 3 2)) (Node.leaf 4 7)),
        ((Node.parent 9 (Node.parent 5 (Node.leaf 2 (1 : Fin 256)) (Node.leaf 3 2))
          (Node.leaf 4 7)).serialize byteCodec).length) ∧
    (stripNode byteCodec
        (Node.parent 9 (Node.parent 5 (Node.leaf 2 (1 : Fin 256)) (Node.leaf 3 2))
          (Node.leaf 4 7))).nodeEq
      (Node.parent 9 (Node.parent 5 (Node.leaf 2 1) (Node.leaf 3 2)) (Node.leaf 4 7))
      = true ∧
    (stripNode byteCodec
        (Node.parent 9 (Node.parent 5 (Node.leaf 2 (1 : Fin 256)) (Node.leaf 3 2))
          (Node.leaf 4 7))).countsZero = true :=
  tree_serialization_roundtrip byteCodec (fun _ => rfl)
    (fun v => Fin.ext (Nat.mod_eq_of_lt v.isLt)) _

/-- C1 (amended): for every sequence that is a single symbol or has at
least two distinct symbols, compress succeeds — for any drain order of
the frequency map — and decompress of the resulting blob returns
exactly the input, provided the code tree fits the 64-bit code path
accumulator and the symbol codec is lawful.  For the empty sequence
compress panics (see the counterexample), and a single distinct symbol
repeated n times with n at least 2 decompresses to one occurrence (see
C4), so those cases are excluded. -/
theorem compress_decompress_roundtrip {U : Type} [DecidableEq U] (c : SymbolCodec U)
    (hlen : ∀ v, (c.toBytes v).length = c.size)
    (hrt : ∀ v, c.ofBytes (c.toBytes v) = v)
    (data : List U) (freqs : List (U × Nat))
    (hvf : validFreqs data freqs)
    (hshape : data.length = 1 ∨ 2 ≤ data.dedup.length)
    (hheight : rootHeightLe64 (sort_frequencies freqs) = true) :
    ∃ blob, compressWith c freqs data = some blob ∧
      decompress c blob = DecompressOutcome.ok data := by
  rcases hshape with hlen1 | hge2
  · obtain ⟨a, ha⟩ := List.length_eq_one.mp hlen1
    subst ha
    have hfr : freqs = [(a, 1)] := validFreqs_singleton a freqs hvf
    subst hfr
    refine ⟨(0 :: c.toBytes a) ++ [0], ?_, ?_⟩
    · have hc := compressWith_replicate c a 1
      simpa using hc
    · exact decompress_leaf_blob c hlen hrt a
  · -- at least two distinct symbols
    obtain ⟨x, y, zs, hdd⟩ : ∃ x y zs, data.dedup = x :: y :: zs := by
      rcases hd : data.dedup with _ | ⟨x, _ | ⟨y, zs⟩⟩
      · rw [hd] at hge2
        simp at hge2
      · rw [hd] at hge2
        simp at hge2
      · exact ⟨_, _, _, rfl⟩
    have hxy : x ≠ y := by
      have hnd := data.nodup_dedup
      rw [hdd] at hnd
      have := (List.nodup_cons.mp hnd).1
      intro hcon
      exact this (by rw [hcon]; simp)
    have hxmem : x ∈ data := by
      rw [← List.mem_dedup, hdd]
      simp
    have hymem : y ∈ data := by
      rw [← List.mem_dedup, hdd]
      simp
    have hxk : x ∈ freqs.map Prod.fst := hvf.2.2 x hxmem
    have hyk : y ∈ freqs.map Prod.fst := hvf.2.2 y hymem
    have hflen : 2 ≤ freqs.length := by
      rcases freqs with _ | ⟨p, _ | ⟨p2, rest⟩⟩
      · simp at hxk
      · have hx2 : x = p.1 := by simpa using hxk
        have hy2 : y = p.1 := by simpa using hyk
        exact absurd (hx2.trans hy2.symm) hxy
      · show 2 ≤ rest.length + 1 + 1
        omega
    have hslen : 2 ≤ (sort_frequencies freqs).length := by
      show 2 ≤ (List.insertionSort (fun a b => a.2 ≤ b.2) freqs).length
      rw [(List.perm_insertionSort (fun a b => a.2 ≤ b.2) freqs).length_eq]
      exact hflen
    obtain ⟨q, fs, hqfs⟩ : ∃ q fs, sort_frequencies freqs = q :: fs := by
      rcases hs : sort_frequencies freqs with _ | ⟨q, fs⟩
      · rw [hs] at hslen
        simp at hslen
      · exact ⟨_, _, rfl⟩
    have hfs1 : 1 ≤ fs.length := by
      rw [hqfs] at hslen
      simp at hslen
      omega
    obtain ⟨T, hroot, hmem, hparfn⟩ := buildTree_spec q fs
    have hpar : ∃ c0 l r, T = Node.parent c0 l r := hparfn hfs1
    have hheight64 : T.height ≤ 64 := by
      unfold rootHeightLe64 at hheight
      rw [hqfs, hroot] at hheight
      simpa using hheight
    have hpaths : ∀ v ∈ data, ∃ p, T.pathTo v = some p ∧ p.length ≤ 64 := by
      intro v hv
      obtain ⟨pp, hpp, hfst⟩ := List.mem_map.mp (hvf.2.2 v hv)
      have hpp2 : pp ∈ q :: fs := by
        rw [← hqfs]
        exact (List.perm_insertionSort (fun a b => a.2 ≤ b.2) freqs).mem_iff.mpr hpp
      have hleaf : v ∈ T.leavesVals := hfst ▸ hmem pp hpp2
      obtain ⟨p, hp⟩ := pathTo_of_mem T v hleaf
      exact ⟨p, hp, le_trans (pathTo_length_le_height T v p hp) hheight64⟩
    have hnewwf : paddedWF BitVec.new.raw_data BitVec.new.last_byte_padding :=
      ⟨by decide, fun _ => rfl, by decide⟩
    obtain ⟨bv, hfold, hbvwf, hbits⟩ := encodeBits_fold T data BitVec.new hnewwf hpaths
    have henc : encodeBits T data = some bv := hfold
    have hcomp : compressWith c freqs data = some (T.serialize c ++ bv.serialize) := by
      unfold compressWith
      rw [hqfs]
      simp only [hroot, henc]
      rfl
    refine ⟨T.serialize c ++ bv.serialize, hcomp, ?_⟩
    unfold decompress
    have hdes : DecodingTree.deserialize c (T.serialize c ++ bv.serialize)
        = Except.ok (⟨stripNode c T⟩, (T.serialize c).length) := by
      rw [DecodingTree.deserialize, deserialize_serialize c hlen T bv.serialize]
    simp only [hdes]
    have hdrop : (T.serialize c ++ bv.serialize).drop (T.serialize c).length
        = bv.serialize := List.drop_left' rfl
    simp only [hdrop]
    rw [show BitVec.deserialize bv.serialize = some bv from rfl]
    have hview : (bv.as_bit_view).iter_bits = pathBitsOf T data := by
      show bv.iter_bits = _
      rw [hbits]
      show bitsOfBytes [] 0 ++ pathBitsOf T data = _
      simp [bitsOfBytes]
    have hdec : (DecodingTree.mk (stripNode c T)).decode bv.as_bit_view
        = DecodeOutcome.ok data := by
      show decodeLoop (stripNode c T) (bv.as_bit_view).iter_bits
          (stripNode c T) true [] = DecodeOutcome.ok data
      rw [hview, ← pathBitsOf_strip c hrt T data]
      have hspar : ∃ c0 l r, stripNode c T = Node.parent c0 l r := by
        obtain ⟨c0, l, r, hT⟩ := hpar
        exact ⟨0, stripNode c l, stripNode c r, by rw [hT]; rfl⟩
      have hspaths : ∀ v ∈ data, ∃ p, (stripNode c T).pathTo v = some p := by
        intro v hv
        obtain ⟨p, hp, _⟩ := hpaths v hv
        exact ⟨p, by rw [stripNode_pathTo c hrt]; exact hp⟩
      have := decodeLoop_concat (stripNode c T) hspar data [] hspaths
      simpa using this
    simp only [hdec]

set_option maxRecDepth 8000 in
/-- Witness for C1 at the two-byte input 61 62 with a concrete drain
order of its frequency map. -/
theorem compress_decompress_roundtrip_witness :
    ∃ blob, compressWith byteCodec [((97 : Fin 256), 1), (98, 1)] [97, 98] = some blob ∧
      decompress byteCodec blob = DecompressOutcome.ok [(97 : Fin 256), 98] :=
  compress_decompress_roundtrip byteCodec (fun _ => rfl)
    (fun v => Fin.ext (Nat.mod_eq_of_lt v.isLt)) [97, 98] [((97 : Fin 256), 1), (98, 1)]
    ⟨by decide, by decide, by decide⟩ (Or.inr (by decide)) (by decide)

/-- C1 counterexample: the claim includes the empty sequence, but
compress of the empty sequence panics — the encoding tree has no root
and into_decoder().unwrap() fails — modelled by compress returning
none. -/
theorem compress_empty_panics :
    compress byteCodec ([] : List (Fin 256)) = none := rfl

/-- C4 (amended): for an input of one distinct symbol repeated n times
(n at least 1), the built tree is a single Leaf, the compressed blob is
exactly the serialized leaf followed by the bit-buffer section with
padding byte 0 and no data bytes (zero path bits per occurrence), and
decompress of that blob returns a single occurrence of the symbol — the
original sequence only when n equals 1. -/
theorem single_symbol_case {U : Type} [DecidableEq U] (c : SymbolCodec U)
    (hlen : ∀ v, (c.toBytes v).length = c.size)
    (hrt : ∀ v, c.ofBytes (c.toBytes v) = v) (a : U) (n : Nat) (hn : 1 ≤ n) :
    (buildTree (sort_frequencies (value_frequencies (List.replicate n a)))).root
        = some (Node.leaf n a) ∧
    compress c (List.replicate n a) = some ((0 :: c.toBytes a) ++ [0]) ∧
    decompress c ((0 :: c.toBytes a) ++ [0]) = DecompressOutcome.ok [a] := by
  refine ⟨?_, compress_replicate c a n hn, decompress_leaf_blob c hlen hrt a⟩
  rw [value_frequencies_replicate a n hn]
  rfl

/-- Witness for C4 at the byte 0x61 repeated four times. -/
theorem single_symbol_case_witness :
    (buildTree (sort_frequencies (value_frequencies
          (List.replicate 4 (97 : Fin 256))))).root = some (Node.leaf 4 97) ∧
    compress byteCodec (List.replicate 4 (97 : Fin 256))
        = some ((0 :: byteCodec.toBytes 97) ++ [0]) ∧
    decompress byteCodec ((0 :: byteCodec.toBytes (97 : Fin 256)) ++ [0])
        = DecompressOutcome.ok [(97 : Fin 256)] :=
  single_symbol_case byteCodec (fun _ => rfl)
    (fun v => Fin.ext (Nat.mod_eq_of_lt v.isLt)) 97 4 (by decide)

/-- C4 counterexample: the claim as stated says decompress returns the
original n-symbol sequence; for the four-byte input aaaa the compressed
blob is 00 61 00 and decompress returns a single a, not four. -/
theorem single_symbol_counterexample :
    compress byteCodec (List.replicate 4 (97 : Fin 256)) = some [0, 97, 0] ∧
    decompress byteCodec [0, 97, 0] = DecompressOutcome.ok [(97 : Fin 256)] ∧
    decompress byteCodec [0, 97, 0]
      ≠ DecompressOutcome.ok (List.replicate 4 (97 : Fin 256)) := by
  refine ⟨rfl, ?_, ?_⟩ <;>
    simp [decompress, DecodingTree.deserialize, Node.deserialize, byteCodec,
      BitVec.deserialize, DecodingTree.decode, BitVec.as_bit_view, BitView.iter_bits,
      bitsOfBytes, byteBits, decodeLoop, List.replicate]

/-- C5 (amended): compress depends on the input only through the
frequency-map drain order; when the distinct symbols have pairwise
distinct frequencies the sorted frequency list — and hence the output
blob — is the same for every drain order, so two calls yield
byte-identical output.  With tied frequencies the output depends on the
per-call iteration order of the hash map (see the counterexample), so
byte-identical output across calls is only guaranteed without ties. -/
theorem compress_deterministic_without_ties {U : Type} [DecidableEq U]
    (c : SymbolCodec U) (data : List U) (f1 f2 : List (U × Nat))
    (h1 : validFreqs data f1) (h2 : validFreqs data f2)
    (hinj : ∀ v ∈ data, ∀ w ∈ data, data.count v = data.count w → v = w) :
    compressWith c f1 data = compressWith c f2 data := by
  unfold compressWith
  rw [sort_frequencies_eq_of_validFreqs data f1 f2 h1 h2 hinj]

set_option maxRecDepth 4000 in
/-- Witness for C5: two drain orders of the frequency map of the
three-byte input 61 62 62, whose counts 1 and 2 are distinct. -/
theorem compress_deterministic_without_ties_witness :
    validFreqs [97, 98, 98] [((97 : Fin 256), 1), (98, 2)] ∧
    validFreqs [97, 98, 98] [((98 : Fin 256), 2), (97, 1)] ∧
    compressWith byteCodec [((97 : Fin 256), 1), (98, 2)] [97, 98, 98]
      = compressWith byteCodec [((98 : Fin 256), 2), (97, 1)] [97, 98, 98] :=
  ⟨by constructor
      · decide
      · exact ⟨by decide, by decide⟩,
   by constructor
      · decide
      · exact ⟨by decide, by decide⟩,
   compress_deterministic_without_ties byteCodec [97, 98, 98]
     [((97 : Fin 256), 1), (98, 2)] [((98 : Fin 256), 2), (97, 1)]
     ⟨by decide, by decide, by decide⟩ ⟨by decide, by decide, by decide⟩
     (by decide)⟩

set_option maxRecDepth 4000 in
/-- C5 counterexample: for the two-byte input 61 62 the two symbol
frequencies tie at 1; the two possible drain orders of the frequency
map are both valid and produce different compressed blobs, so compress
as implemented is not a function of the input sequence alone and two
calls need not agree byte for byte. -/
theorem compress_depends_on_drain_order :
    validFreqs [97, 98] [((97 : Fin 256), 1), (98, 1)] ∧
    validFreqs [97, 98] [((98 : Fin 256), 1), (97, 1)] ∧
    compressWith byteCodec [((97 : Fin 256), 1), (98, 1)] [97, 98]
      ≠ compressWith byteCodec [((98 : Fin 256), 1), (97, 1)] [97, 98] := by
  refine ⟨⟨by decide, by decide, by decide⟩, ⟨by decide, by decide, by decide⟩, ?_⟩
  decide

/-- C6: inserting into a Leaf replaces it by a Parent whose left child is
a new Leaf with the old count and value and whose right child is a new
Leaf with the incoming frequency and value, the Parent count being the
sum; inserting into a Parent descends left exactly when the right child
is strictly heavier and otherwise (ties included) descends right, adding
the inserted frequency to the Parent count; and inserting into an empty
tree creates a single Leaf. -/
theorem insert_algorithm_spec (U : Type) [DecidableEq U] :
    (∀ (c : Nat) (w : U) (freq : Nat) (v : U),
      (Node.leaf c w).insert freq v
        = Node.parent (c + freq) (Node.leaf c w) (Node.leaf freq v)) ∧
    (∀ (c : Nat) (l r : Node U) (freq : Nat) (v : U), r.count > l.count →
      (Node.parent c l r).insert freq v
        = Node.parent (c + freq) (l.insert freq v) r) ∧
    (∀ (c : Nat) (l r : Node U) (freq : Nat) (v : U), r.count ≤ l.count →
      (Node.parent c l r).insert freq v
        = Node.parent (c + freq) l (r.insert freq v)) ∧
    (∀ (t : EncodingTree U) (freq : Nat) (v : U), t.root = none →
      (t.add_value freq v).root = some (Node.leaf freq v)) := by
  refine ⟨fun c w freq v => rfl, ?_, ?_, ?_⟩
  · intro c l r freq v hgt
    simp [Node.insert, hgt]
  · intro c l r freq v hle
    simp [Node.insert, Nat.not_lt_of_le hle]
  · intro t freq v hroot
    simp [EncodingTree.add_value, hroot]

/-- Witness for C6 at concrete byte-valued trees. -/
theorem insert_algorithm_spec_witness :
    ((Node.leaf 3 (5 : Fin 256)).insert 4 9
        = Node.parent 7 (Node.leaf 3 5) (Node.leaf 4 9)) ∧
    ((Node.parent 5 (Node.leaf 2 (1 : Fin 256)) (Node.leaf 3 2)).insert 1 7
        = Node.parent 6 ((Node.leaf 2 1).insert 1 7) (Node.leaf 3 2)) ∧
    ((Node.parent 4 (Node.leaf 2 (1 : Fin 256)) (Node.leaf 2 2)).insert 1 7
        = Node.parent 5 (Node.leaf 2 1) ((Node.leaf 2 2).insert 1 7)) ∧
    ((EncodingTree.new (U := Fin 256)).add_value 6 8).root = some (Node.leaf 6 8) :=
  ⟨(insert_algorithm_spec (Fin 256)).1 3 5 4 9,
   (insert_algorithm_spec (Fin 256)).2.1 5 (Node.leaf 2 1) (Node.leaf 3 2) 1 7 (by decide),
   (insert_algorithm_spec (Fin 256)).2.2.1 4 (Node.leaf 2 1) (Node.leaf 2 2) 1 7 (by decide),
   (insert_algorithm_spec (Fin 256)).2.2.2 EncodingTree.new 6 8 rfl⟩

/-- C2 (code bug evidence): the claim asserts decompress never panics on
any input, but the concrete input 00 61 00 80 — a leaf-only tree for the
byte 0x61 followed by a bit buffer with padding 0 and one data byte —
drives the decode loop into its unreachable branch: the loop starts at
the root, which is already a Leaf, while a bit remains.  The model
surfaces that unreachable branch as the panicked outcome. -/
theorem decompress_panics_on_leaf_tree_with_bits :
    decompress byteCodec [0, 97, 0, 128] = DecompressOutcome.panicked := by
  simp [decompress, DecodingTree.deserialize, Node.deserialize, byteCodec,
    BitVec.deserialize, DecodingTree.decode, BitVec.as_bit_view, BitView.iter_bits,
    bitsOfBytes, byteBits, decodeLoop, List.range_succ]

/-- C8: starting from the zero path and applying at most 64 left/right
steps, the resulting path has meaningful equal to the number of steps,
and as_bits exposes exactly those bits, most significant first, with the
i-th bit false for a left step and true for a right step (the steps list
encodes step_right as true). -/
theorem encoding_path_bits (steps : List Bool) (h : steps.length ≤ 64) :
    (applySteps steps).meaningful = steps.length ∧
    (applySteps steps).as_bits.iter_bits = steps := by
  constructor
  · rw [applySteps_spec steps h]
  · exact as_bits_iter_bits steps h

/-- Witness for C8 at a concrete step sequence. -/
theorem encoding_path_bits_witness :
    ([true, false, true, true, false].length ≤ 64) ∧
    (applySteps [true, false, true, true, false]).meaningful = 5 ∧
    (applySteps [true, false, true, true, false]).as_bits.iter_bits
      = [true, false, true, true, false] := by
  refine ⟨by decide, ?_⟩
  have := encoding_path_bits [true, false, true, true, false] (by decide)
  exact ⟨this.1, this.2⟩

/-- C9: extending a destination bit buffer by a source bit view appends
exactly the source bits to the destination bits, through whichever of
the two paths (aligned raw copy or misaligned bit-by-bit) runs, so the
resulting logical bit sequence does not depend on the destination
alignment. -/
theorem extend_from_alignment_insensitive (v : BitVec) (view : BitView)
    (hv : paddedWF v.raw_data v.last_byte_padding)
    (hw : paddedWF view.raw_data view.last_byte_padding) :
    (v.extend_from_bits view).iter_bits = v.iter_bits ++ view.iter_bits :=
  (extend_from_bits_spec v view hv hw).1

/-- Witness for C9: one aligned destination (fast path) and one
misaligned destination (slow path), extended by the same view. -/
theorem extend_from_alignment_insensitive_witness :
    ((BitVec.mk [160] 0).extend_from_bits (BitView.mk [192] 5)).iter_bits
      = (BitVec.mk [160] 0).iter_bits ++ (BitView.mk [192] 5).iter_bits ∧
    ((BitVec.mk [160] 5).extend_from_bits (BitView.mk [192] 5)).iter_bits
      = (BitVec.mk [160] 5).iter_bits ++ (BitView.mk [192] 5).iter_bits :=
  ⟨extend_from_alignment_insensitive (BitVec.mk [160] 0) (BitView.mk [192] 5)
      (by refine ⟨by norm_num, by simp, by norm_num⟩)
      (by refine ⟨by norm_num, by simp, by norm_num⟩),
   extend_from_alignment_insensitive (BitVec.mk [160] 5) (BitView.mk [192] 5)
      (by refine ⟨by norm_num, by simp, by norm_num⟩)
      (by refine ⟨by norm_num, by simp, by norm_num⟩)⟩

end FreqTree
